import Mathlib

/-!
Verification of the text-parsing core of the NHF Night Board repository
(src/src/App.jsx and the extracted module copies under src/unnamed/).

Strings are modelled as `List Char` (`Str`).  Each JavaScript parser is
translated function-by-function; regular expressions are translated into
explicit deterministic scanners following the backtracking semantics of the
JS engine (greedy quantifiers with backtracking, which for the concrete
patterns used here reduce to the deterministic scans implemented below —
each reduction is justified in a comment at the definition).

JS semantics mirrored here:
 * `String.prototype.trim` removes Unicode whitespace from both ends;
   inputs of interest use the whitespace characters listed in `isWS`.
 * `"".split("\n") = [""]`, and a trailing separator yields a trailing
   empty piece — matched by `splitNL`.
 * `\w` is `[A-Za-z0-9_]`, `\d` is `[0-9]`, `\s` is Unicode whitespace.
 * `toUpperCase`/`toLowerCase` on the ASCII letters that the patterns
   inspect agree with `Char.toUpper`/`Char.toLower`.
-/

abbrev Str := List Char

def strL (s : String) : Str := s.data

/-- JS whitespace (`\s`, and the set trimmed by `String.prototype.trim`)
restricted to the characters that can occur here. -/
def isWS (c : Char) : Bool :=
  c = ' ' || c = '\t' || c = '\n' || c = '\r' || c = '\x0b' || c = '\x0c' ||
  c = '\u00A0' || c = '\uFEFF'

/-- JS `\w` word character: `[A-Za-z0-9_]`. -/
def isWordChar (c : Char) : Bool :=
  (c.isAlpha && c.toNat < 128) || c.isDigit || c = '_'

def isDigitChar (c : Char) : Bool := c.isDigit

def isAlphaChar (c : Char) : Bool := c.isAlpha && c.toNat < 128

/-- Leading-whitespace removal (the `\s*` of a regex, taken greedily). -/
def dropWS (s : Str) : Str := s.dropWhile (fun c => isWS c)

/-- JS `String.prototype.trim`. -/
def jsTrim (s : Str) : Str := ((dropWS s).reverse.dropWhile (fun c => isWS c)).reverse

def toLowerS (s : Str) : Str := s.map Char.toLower

/-- Case-insensitive character comparison, as used by the `/i` regex flag on
the ASCII literals appearing in the source patterns. -/
def ciChar (a b : Char) : Bool := a.toLower = b.toLower

/-- `ciStarts pat s`: `s` begins with the literal `pat`, case-insensitively. -/
def ciStarts : Str → Str → Bool
  | [], _ => true
  | _ :: _, [] => false
  | p :: ps, c :: cs => ciChar c p && ciStarts ps cs

/-- Word boundary just after a matched literal: the next character is absent
or a non-word character (`\b` when the literal ends in a word character). -/
def boundaryAfter : Str → Bool
  | [] => true
  | c :: _ => !isWordChar c

/-- JS `\b` at a position, given the previous character (none at the start of
the string) and the remaining text: the two sides differ in word-ness. -/
def boundaryAt (prev : Option Char) (rest : Str) : Bool :=
  let pw := match prev with | none => false | some c => isWordChar c
  let nw := match rest with | [] => false | c :: _ => isWordChar c
  pw != nw

/-- `text.replace(/\r/g, "")`. -/
def stripCR (s : Str) : Str := s.filter (fun c => c ≠ '\r')

/-- `text.split("\n")` with JS semantics (`"".split` gives `[""]`,
a trailing separator gives a trailing empty piece). -/
def splitNL : Str → List Str
  | [] => [[]]
  | c :: cs =>
    if c = '\n' then [] :: splitNL cs
    else match splitNL cs with
      | [] => [[c]]
      | p :: ps => (c :: p) :: ps

/-- `lines.join("\n")`. -/
def joinNL (ls : List Str) : Str :=
  match ls with
  | [] => []
  | [l] => l
  | l :: ls => l ++ '\n' :: joinNL ls

def natToStr (n : Nat) : Str := (Nat.repr n).data

/-- `String(n).padStart(2, "0")`. -/
def pad2 (n : Nat) : Str := if n < 10 then '0' :: natToStr n else natToStr n

/-- `parseInt` on a list of decimal digits. -/
def natOfDigits (ds : Str) : Nat :=
  ds.foldl (fun a c => a * 10 + (c.toNat - '0'.toNat)) 0

/- =====================================================================
   Date Header Parser  (src/src/App.jsx lines 406-442, identical copy in
   src/unnamed/part_005 lines 1-20)
   ===================================================================== -/

structure DateHeader where
  iso : Option Str
  label : Str
deriving DecidableEq, Repr

/-- The fixed month table of `parseDateHeader` (name, 0-based index). -/
def monthIndex (m : Str) : Option Nat :=
  if m = strL "jan" ∨ m = strL "january" then some 0
  else if m = strL "feb" ∨ m = strL "february" then some 1
  else if m = strL "mar" ∨ m = strL "march" then some 2
  else if m = strL "apr" ∨ m = strL "april" then some 3
  else if m = strL "may" then some 4
  else if m = strL "jun" ∨ m = strL "june" then some 5
  else if m = strL "jul" ∨ m = strL "july" then some 6
  else if m = strL "aug" ∨ m = strL "august" then some 7
  else if m = strL "sep" ∨ m = strL "sept" ∨ m = strL "september" then some 8
  else if m = strL "oct" ∨ m = strL "october" then some 9
  else if m = strL "nov" ∨ m = strL "november" then some 10
  else if m = strL "dec" ∨ m = strL "december" then some 11
  else none

/-- The sanitising replace of `parseDateHeader`: delete every character that
is not a word char, whitespace, parenthesis, slash or hyphen (the JS
character class is written there as caret, backslash-w, backslash-s, the two
parentheses, slash, hyphen). -/
def sanitizeHdr (s : Str) : Str :=
  s.filter (fun c => isWordChar c || isWS c || c = '(' || c = ')' || c = '/' || c = '-')

/-- Matcher for `/^(\d{1,2})\s+([A-Za-z]{3,9})(?:\s+(\d{2,4}))?/`.
A leading digit run of length ≥ 3 can never match (`\d{1,2}` backtracks to 2
then 1 digits, after which `\s+` faces a digit), so the run length must be 1
or 2 and be followed by whitespace.  The month capture is the greedy
`min 9` prefix of the letter run (the following group is optional, so the
engine never backtracks the month length); it needs at least 3 letters.
The optional year group requires whitespace then a digit run of length ≥ 2
and captures greedily at most 4 digits. -/
def matchDayMonth (t : Str) : Option (Nat × Str × Option Nat) :=
  let ds := t.takeWhile isDigitChar
  if ds.length = 0 ∨ 2 < ds.length then none
  else
    let r1 := t.drop ds.length
    let w1 := r1.takeWhile isWS
    if w1.length = 0 then none
    else
      let r2 := r1.drop w1.length
      let letters := r2.takeWhile isAlphaChar
      if letters.length < 3 then none
      else
        let mon := letters.take 9
        let r3 := r2.drop mon.length
        let w2 := r3.takeWhile isWS
        let yr :=
          if w2.length = 0 then none
          else
            let ds2 := (r3.drop w2.length).takeWhile isDigitChar
            if ds2.length < 2 then none
            else some (natOfDigits (ds2.take 4))
        some (natOfDigits ds, toLowerS mon, yr)

/-- `line.replace(/\s+\d{4}$/, "")`: the pattern matches exactly when the
string ends in four digits immediately preceded by at least one whitespace
character; the leftmost match starts at the beginning of that whitespace run,
so the whole run and the four digits are removed. -/
def stripTrailYear (s : Str) : Str :=
  let r := s.reverse
  let d4 := r.take 4
  if d4.length = 4 && d4.all isDigitChar && (match r.drop 4 with
      | [] => false
      | c :: _ => isWS c) then
    ((r.drop 4).dropWhile (fun c => isWS c)).reverse
  else s

/-- `parseDateHeader` (App.jsx 406-442).  `cy` stands for
`new Date().getFullYear()`, the calendar year at the moment of the call. -/
def parseDateHeader (cy : Nat) (header : Str) : DateHeader :=
  let line := jsTrim (sanitizeHdr header)
  match matchDayMonth line with
  | none =>
      { iso := none,
        label := if jsTrim header ≠ [] then jsTrim header else strL "—" }
  | some (dd, mon, yrOpt) =>
      let yyyy := match yrOpt with
        | some yr => if yr < 100 then 2000 + yr else yr
        | none => cy
      let iso := (monthIndex mon).map
        (fun mm => natToStr yyyy ++ '-' :: (pad2 (mm + 1) ++ '-' :: pad2 dd))
      let lbl0 := jsTrim (stripTrailYear line)
      { iso := iso, label := if lbl0 ≠ [] then lbl0 else jsTrim header }

/- =====================================================================
   Mission/Spare Line Parser  (App.jsx lines 475-507, identical copy in
   src/unnamed/part_005 lines 22-48)
   ===================================================================== -/

inductive EntryType
  | mission
  | spare
deriving DecidableEq, Repr

structure ScheduleEntry where
  type : EntryType
  code : Option Str
  label : Str
deriving DecidableEq, Repr

/-- The previous character after matching `n` characters of `t` (used to
evaluate a word boundary that follows a matched literal). -/
def advPrev (prev : Option Char) (t : Str) (n : Nat) : Option Char :=
  match (t.take n).getLast? with
  | some c => some c
  | none => prev

/-- One attempt of `\bspare\b(?!\s*window)` at a fixed position: word
boundary, the literal `spare` (case-insensitive), word boundary, and the
negative lookahead (greedy `\s*` then `window`; no backtracking is possible
inside the lookahead because `w` is not whitespace). -/
def spareAt (prev : Option Char) (t : Str) : Bool :=
  boundaryAt prev t && ciStarts (strL "spare") t &&
    (let r := t.drop 5
     boundaryAfter r && !(ciStarts (strL "window") (dropWS r)))

/-- Scan every position of the text (final position included), testing `p`
with the character preceding the position. -/
def scanPos (p : Option Char → Str → Bool) : Option Char → Str → Bool
  | prev, [] => p prev []
  | prev, c :: cs => p prev (c :: cs) || scanPos p (some c) cs

/-- `/\bspare\b(?!\s*window)/i.test(s)`. -/
def isSpareText (s : Str) : Bool := scanPos spareAt none s

/-- `toUpperCase` restricted to the characters the `[FS]` (case-insensitive)
guard admits. -/
def upFS (c : Char) : Char := if c = 'f' then 'F' else if c = 's' then 'S' else c

/-- Leading unit code (`[FS]\d`, case-insensitive — without the `u` flag the
class matches exactly F, S, f, s), uppercased as the source does, plus the
remainder of the line. -/
def codeStart : Str → Option (Str × Str)
  | c1 :: c2 :: rest =>
    if (c1 = 'F' || c1 = 'f' || c1 = 'S' || c1 = 's') && isDigitChar c2 then
      some ([upFS c1, c2], rest)
    else none
  | _ => none

/-- One attempt of the time-range group `\d{3,4}\s*-\s*\d{3,4}` with the
first run forced to exactly `n` digits; returns the compressed capture
(whitespace removed, as `time.replace` does) and the remainder. -/
def timeTry (t : Str) (n : Nat) : Option (Str × Str) :=
  let d1 := t.take n
  if d1.length = n && d1.all isDigitChar then
    match dropWS (t.drop n) with
    | '-' :: r2 =>
      let r3 := dropWS r2
      let ds2 := r3.takeWhile isDigitChar
      if ds2.length < 3 then none
      else
        let d2 := ds2.take 4
        some (d1 ++ '-' :: d2, r3.drop d2.length)
    | _ => none
  else none

/-- The time-range group at the head of `t`: the greedy `\d{3,4}` tries four
digits, then backtracks to three; the second run is greedy with nothing
after it inside the group.  (When the text has more than `n` leading digits
`timeTry` fails on the hyphen, matching the engine's behaviour.) -/
def timeAt (t : Str) : Option (Str × Str) :=
  match timeTry t 4 with
  | some r => some r
  | none => timeTry t 3

/-- Result of the standard mission-line match (`mStd` in the source). -/
structure StdMatch where
  code : Str
  time : Str
  rest : Str
deriving DecidableEq, Repr

/-- The match against
caret, `([FS]\d)`, ws-star, optional colon-or-hyphen, ws-star, optional
time group, ws-star, dot-star to end (all case-insensitive).  It succeeds
exactly when the line starts with a unit code, because everything after the
code is optional and the final group swallows any remainder; no greedy
choice is ever backtracked since the tail always succeeds.  `time` is the
compressed group 2 (empty when absent), `rest` the trimmed group 3. -/
def mStd (s : Str) : Option StdMatch :=
  match codeStart s with
  | none => none
  | some (code, r0) =>
    let r1 := dropWS r0
    let r2 := match r1 with
      | ':' :: r => r
      | '-' :: r => r
      | _ => r1
    let r3 := dropWS r2
    match timeAt r3 with
    | some (time, r4) => some { code := code, time := time, rest := jsTrim r4 }
    | none => some { code := code, time := [], rest := jsTrim r3 }

/-- `/^spare\b/i.test(rest)`. -/
def spareWordStart (r : Str) : Bool :=
  ciStarts (strL "spare") r && boundaryAfter (r.drop 5)

/-- `rest.replace(/^spare/i, "")`. -/
def dropSpare (r : Str) : Str :=
  if ciStarts (strL "spare") r then r.drop 5 else r

/-- `parseMissionLine` (App.jsx 475-507).  Faithful for single lines (inputs
without a newline, which is what every caller passes): on those the
`mAsSpare` fallback regex also requires a leading unit code and so can
never succeed once `mStd` has failed — it is dead code and needs no case
here. -/
def parseMissionLine (ln : Str) : Option ScheduleEntry :=
  let s := jsTrim ln
  if s = [] || toLowerS s = strL "nil" then none
  else
    match mStd s with
    | some m =>
      if isSpareText s || spareWordStart m.rest then
        let x := dropSpare m.rest
        some { type := .spare, code := some m.code,
               label := jsTrim (m.code ++ strL " Spare" ++
                 (if x ≠ [] then ' ' :: jsTrim x else [])) }
      else
        let text := if m.time = [] then m.rest
                    else if m.rest = [] then m.time
                    else m.time ++ ' ' :: m.rest
        some { type := .mission, code := some m.code,
               label := if text = [] then m.code else text }
    | none =>
      if ciStarts (strL "nil") s &&
         ciStarts (strL "spare") (dropWS (s.drop 3)) then
        some { type := .spare, code := none, label := strL "Nil Spare" }
      else if (ciStarts (strL "bmd") s || ciStarts (strL "rsd") s) &&
              boundaryAfter (s.drop 3) then
        some { type := .mission, code := none, label := s }
      else none

/- =====================================================================
   Healing Line Parser  (App.jsx lines 509-533, identical copy in
   src/unnamed/part_005 lines 50-68)
   ===================================================================== -/

structure HealEntry where
  code : Option Str
  label : Str
deriving DecidableEq, Repr

/-- Group 2 of the healing-line match (caret, code, ws-star, optional
colon, ws-star, dot-plus to end), already passed through the caller's
`.trim()`.  The case split reproduces the backtracking of the two greedy
`\s*` and the optional colon, which only matters when the tail would leave
`.+` empty:
 * tail empty: the whole regex fails (`none`);
 * tail all whitespace: the first `\s*` gives back one character, the
   group captures it, trimming to empty;
 * colon followed only by whitespace: the second `\s*` gives back one
   whitespace character (trim empty);
 * bare trailing colon: the optional colon itself backtracks and the group
   captures the colon. -/
def healRhs (t : Str) : Option Str :=
  if t = [] then none
  else
    let t1 := dropWS t
    if t1 = [] then some []
    else match t1 with
      | ':' :: u =>
        let u1 := dropWS u
        if u1 ≠ [] then some (jsTrim u1)
        else if u ≠ [] then some []
        else some [':']
      | _ => some (jsTrim t1)

/-- Repeated global search for the time-range pattern over `rhs` (leftmost,
non-overlapping, continuing from `lastIndex` after each match): returns the
compressed captures in order and the remainder after the last match.  The
fuel argument bounds the scan; every step consumes at least one character,
so `length + 1` is always enough. -/
def healTimesGo : Nat → Str → List Str × Str
  | 0, _ => ([], [])
  | _, [] => ([], [])
  | fuel + 1, c :: cs =>
    match timeAt (c :: cs) with
    | some (time, r) =>
      let p := healTimesGo fuel r
      (time :: p.1, if p.1 = [] then r else p.2)
    | none => healTimesGo fuel cs

def healTimes (t : Str) : List Str × Str := healTimesGo (t.length + 1) t

/-- `parseHealingLine` (App.jsx 509-533). -/
def parseHealingLine (ln : Str) : List HealEntry :=
  let s := jsTrim ln
  if s = [] || toLowerS s = strL "nil" then []
  else match codeStart s with
    | none => [{ code := none, label := s }]
    | some (code, t) =>
      match healRhs t with
      | none => [{ code := none, label := s }]
      | some rhs =>
        let p := healTimes rhs
        if p.1 = [] then [{ code := some code, label := rhs }]
        else
          let trailing := jsTrim p.2
          p.1.map (fun tm =>
            { code := some code,
              label := if trailing = [] then tm else tm ++ ' ' :: trailing })

/- =====================================================================
   Section Scanner  (App.jsx lines 461-473, identical copy in
   src/unnamed/part_005 lines 70-82)
   ===================================================================== -/

structure SectionResult where
  items : List Str
  nextIdx : Nat
deriving DecidableEq, Repr

/-- One alternation attempt of the compiled guard at a fixed position.  The
keywords are escaped for literal matching before being joined, so each
alternative is a literal (case-insensitive) followed by the shared word
boundary; with an empty keyword list the alternation `(?:)` matches the
empty string, leaving just the word-boundary test. -/
def altAt (keys : List Str) (prev : Option Char) (t : Str) : Bool :=
  match keys with
  | [] => boundaryAt prev t
  | _ => keys.any (fun k =>
      ciStarts k t && boundaryAt (advPrev prev t k.length) (t.drop k.length))

/-- `guard.test(s)` for the pattern caret, ws-star, alternation, word
boundary: the greedy `\s*` tries every split point inside the leading
whitespace run. -/
def guardGo (keys : List Str) (prev : Option Char) : Str → Bool
  | [] => altAt keys prev []
  | c :: cs =>
    altAt keys prev (c :: cs) ||
      (if isWS c then guardGo keys (some c) cs else false)

def guardTest (keys : List Str) (s : Str) : Bool := guardGo keys none s

/-- The collection loop of `parseSection` over the lines from the start
index: collected placeholders (blank lines as empty entries, others
trimmed) plus the number of lines consumed.  The loop stops, without
consuming it, at the first non-blank line whose trimmed text matches the
guard. -/
def collectSec (g : Str → Bool) : List Str → List Str × Nat
  | [] => ([], 0)
  | l :: ls =>
    let t := jsTrim l
    if t = [] then
      let p := collectSec g ls
      ([] :: p.1, p.2 + 1)
    else if g t then ([], 0)
    else
      let p := collectSec g ls
      (t :: p.1, p.2 + 1)

/-- The trailing-blank trimming (`while (out.length && ...) out.pop()`). -/
def dropTrailingEmpties (xs : List Str) : List Str :=
  (xs.reverse.dropWhile (fun x => x = [])).reverse

/-- `parseSection` (App.jsx 461-473). -/
def parseSection (lines : List Str) (startIdx : Nat) (nextHeaders : List Str) :
    SectionResult :=
  let p := collectSec (guardTest nextHeaders) (lines.drop startIdx)
  { items := dropTrailingEmpties p.1, nextIdx := startIdx + p.2 }

/- =====================================================================
   Daily Schedule Parser  (App.jsx lines 535-626, identical copy in
   src/unnamed/part_005 lines 84-143)
   ===================================================================== -/

structure DayRecord where
  dateISO : Option Str
  dateLabel : Str
  missions : List ScheduleEntry
  spares : List ScheduleEntry
  healing : List HealEntry
  hot : List Str
  cold : List Str
  ops : List Str
  notes : List Str
deriving DecidableEq, Repr, Inhabited

/-- `H_RTS = /^rts\s*:/i`. -/
def hRTS (t : Str) : Bool :=
  ciStarts (strL "rts") t &&
    (match dropWS (t.drop 3) with
     | ':' :: _ => true
     | _ => false)

/-- `H_HEAL = /^healing\b/i`. -/
def hHeal (t : Str) : Bool := ciStarts (strL "healing") t && boundaryAfter (t.drop 7)

/-- `H_HOT = /^hot\b/i`. -/
def hHot (t : Str) : Bool := ciStarts (strL "hot") t && boundaryAfter (t.drop 3)

/-- `H_COLD = /^cold\b/i`. -/
def hCold (t : Str) : Bool := ciStarts (strL "cold") t && boundaryAfter (t.drop 4)

/-- `H_OPS = /^ops\s*brief\b/i`. -/
def hOps (t : Str) : Bool :=
  ciStarts (strL "ops") t &&
    (let r := dropWS (t.drop 3)
     ciStarts (strL "brief") r && boundaryAfter (r.drop 5))

/-- `H_NOTES = /^notes\b/i`. -/
def hNotes (t : Str) : Bool := ciStarts (strL "notes") t && boundaryAfter (t.drop 5)

def isHeaderL (t : Str) : Bool :=
  hRTS t || hHeal t || hHot t || hCold t || hOps t || hNotes t

/-- The mutable collections of `parseRTSDaily` during its scan. -/
structure DayAcc where
  missions : List ScheduleEntry
  spares : List ScheduleEntry
  healing : List HealEntry
  hot : List Str
  cold : List Str
  ops : List Str
  notes : List Str
deriving DecidableEq, Repr

def emptyAcc : DayAcc := ⟨[], [], [], [], [], [], []⟩

/-- Routing of one parsed mission line into missions or spares. -/
def addMission (acc : DayAcc) (ln : Str) : DayAcc :=
  match parseMissionLine ln with
  | none => acc
  | some e =>
    if e.type = .spare then { acc with spares := acc.spares ++ [e] }
    else { acc with missions := acc.missions ++ [e] }

/-- The terminator keyword lists passed to `parseSection` for each section. -/
def ksRTS : List Str :=
  [strL "Healing", strL "Hot", strL "Cold", strL "Ops Brief", strL "Notes"]

def ksHeal : List Str := [strL "Hot", strL "Cold", strL "Ops Brief", strL "Notes"]

def ksHot : List Str := [strL "Cold", strL "Ops Brief", strL "Notes"]

def ksCold : List Str := [strL "Ops Brief", strL "Notes"]

def ksOps : List Str := [strL "Notes"]

/-- `/\S/.test(ln)`. -/
def hasNonWS (ln : Str) : Bool := dropWS ln ≠ []

/-- `ln.replace(/[,;]/g, ",").trim()`. -/
def opsNorm (ln : Str) : Str :=
  jsTrim (ln.map (fun c => if c = ',' || c = ';' then ',' else c))

/-- `parseSection` rephrased on the remaining-line list: the collected items
and the lines from the stop position onwards (the caller sets `i = nextIdx`,
i.e. continues exactly there). -/
def sectionList (g : Str → Bool) (ls : List Str) : List Str × List Str :=
  let p := collectSec g ls
  (dropTrailingEmpties p.1, ls.drop p.2)

/-- The header-dispatch loop of `parseRTSDaily` (its `while` loop), over the
remaining lines.  The fuel only bounds the iteration count: every iteration
consumes at least one line (`parseSection` is applied from the next index),
so fuel `length + 1` can never be exhausted. -/
def dailyLoop : Nat → List Str → DayAcc → DayAcc
  | 0, _, acc => acc
  | _ + 1, [], acc => acc
  | fuel + 1, l :: ls, acc =>
    let s := jsTrim l
    if hRTS s then
      let p := sectionList (guardTest ksRTS) ls
      dailyLoop fuel p.2 (p.1.foldl addMission acc)
    else if hHeal s then
      let p := sectionList (guardTest ksHeal) ls
      dailyLoop fuel p.2
        { acc with healing := acc.healing ++ (p.1.map parseHealingLine).flatten }
    else if hHot s then
      let p := sectionList (guardTest ksHot) ls
      dailyLoop fuel p.2
        { acc with hot := acc.hot ++
            p.1.filter (fun ln => hasNonWS ln && toLowerS ln ≠ strL "nil") }
    else if hCold s then
      let p := sectionList (guardTest ksCold) ls
      dailyLoop fuel p.2
        { acc with cold := acc.cold ++
            p.1.filter (fun ln => hasNonWS ln && toLowerS ln ≠ strL "nil") }
    else if hOps s then
      let p := sectionList (guardTest ksOps) ls
      dailyLoop fuel p.2
        { acc with ops := acc.ops ++ (p.1.filter hasNonWS).map opsNorm }
    else if hNotes s then
      let p := sectionList (guardTest ([] : List Str)) ls
      dailyLoop fuel p.2 { acc with notes := acc.notes ++ p.1.filter hasNonWS }
    else
      dailyLoop fuel ls acc

/-- `parseRTSDaily` (App.jsx 535-626; `parseDailyRTS` in part_005 is the
same code).  Returns `none` only when the line list is empty — which never
happens, since splitting always yields at least one piece. -/
def parseRTSDaily (cy : Nat) (text : Str) : Option DayRecord :=
  let lines := splitNL (stripCR text)
  match lines with
  | [] => none
  | l0 :: rest =>
    let dh := parseDateHeader cy l0
    let pre := rest.takeWhile (fun l => !isHeaderL (jsTrim l))
    let rest2 := rest.dropWhile (fun l => !isHeaderL (jsTrim l))
    let acc0 := ((pre.map jsTrim).filter (fun t => t ≠ [])).foldl addMission emptyAcc
    let acc := dailyLoop (rest2.length + 1) rest2 acc0
    some { dateISO := dh.iso, dateLabel := dh.label,
           missions := acc.missions, spares := acc.spares, healing := acc.healing,
           hot := acc.hot, cold := acc.cold, ops := acc.ops, notes := acc.notes }

/- =====================================================================
   Weekly Schedule Splitter + Parser  (App.jsx lines 444-459 and 628-646;
   identical copies in src/unnamed/part_005 lines 145-171)
   ===================================================================== -/

/-- `dayRe.test(line.trim())` for
`/^\s*\d{1,2}\s+[A-Za-z]{3,9}(?:\s+\d{2,4})?\s*(?:\([^)]+\))?/`: everything
after the month letters is optional, so the test only needs ws-star, a 1-2
digit run (3 or more digits can never match, as in `matchDayMonth`),
whitespace, and at least three letters. -/
def dayReTest (s : Str) : Bool :=
  let t := dropWS s
  let ds := t.takeWhile isDigitChar
  if ds.length = 0 || 2 < ds.length then false
  else
    let r1 := t.drop ds.length
    let w1 := r1.takeWhile isWS
    if w1.length = 0 then false
    else 3 ≤ ((r1.drop w1.length).takeWhile isAlphaChar).length

/-- The header line indexes found by `splitWeekIntoDays`. -/
def dayIdxs (lines : List Str) : List Nat :=
  (List.range lines.length).filter (fun i => dayReTest (jsTrim (lines.getD i [])))

/-- The slicing loop of `splitWeekIntoDays`: from each header index up to
(not including) the next, the last chunk running to the end. -/
def sliceChunks (lines : List Str) : List Nat → List Str
  | [] => []
  | [i] => [jsTrim (joinNL (lines.drop i))]
  | i :: j :: rest =>
    jsTrim (joinNL ((lines.drop i).take (j - i))) :: sliceChunks lines (j :: rest)

/-- `splitWeekIntoDays` (App.jsx 444-459). -/
def splitWeekIntoDays (text : Str) : List Str :=
  let lines := splitNL (stripCR text)
  (sliceChunks lines (dayIdxs lines)).filter (fun c => c ≠ [])

/-- `/(RTS:|Healing|Notes|Hot|Cold|Ops Brief)/i.test(body)` — a bare
substring test, not anchored at line starts. -/
def hasAnyHeaderKW (s : Str) : Bool :=
  scanPos (fun _ t =>
    ciStarts (strL "RTS:") t || ciStarts (strL "Healing") t ||
    ciStarts (strL "Notes") t || ciStarts (strL "Hot") t ||
    ciStarts (strL "Cold") t || ciStarts (strL "Ops Brief") t) none s

/-- The text actually handed to `parseRTSDaily` for one weekly chunk: the
parsed label replaces the header line, and an `RTS:` line is prefixed when
the body contains no section keyword. -/
def weekBlockText (cy : Nat) (chunk : Str) : Str :=
  let lines := splitNL chunk
  let header := lines.headD []
  let lbl := (parseDateHeader cy header).label
  let body := joinNL lines.tail
  let body2 := if hasAnyHeaderKW body then body else strL "RTS:" ++ '\n' :: body
  lbl ++ '\n' :: body2

/-- The per-chunk body of `parseRTSWeek`'s `map` (App.jsx 632-645),
including the never-taken fallback for a `null` daily parse. -/
def weekDay (cy : Nat) (chunk : Str) : DayRecord :=
  match parseRTSDaily cy (weekBlockText cy chunk) with
  | some r => r
  | none =>
    let header := (splitNL chunk).headD []
    let dh := parseDateHeader cy header
    { dateISO := dh.iso, dateLabel := dh.label, missions := [], spares := [],
      healing := [], hot := [], cold := [], ops := [], notes := [] }

/-- `parseRTSWeek` (App.jsx 628-646; `parseWeeklyRTS` in part_005 is the
same code).  The early return for an empty block list coincides with
mapping over the empty list. -/
def parseRTSWeek (cy : Nat) (text : Str) : List DayRecord :=
  (splitWeekIntoDays text).map (weekDay cy)

/- =====================================================================
   Claims C3, C4, C9
   ===================================================================== -/

/-- The first line that `parseRTSDaily` hands to the Date Header Parser. -/
def firstLine (text : Str) : Str := (splitNL (stripCR text)).headD []

/- =====================================================================
   Claim C7
   ===================================================================== -/

/-- Spec-side terminator test (the amended claim's wording): the trimmed
line starts, case-insensitively, with one of the keywords, followed by a
word boundary. -/
def termStarts (keys : List Str) (t : Str) : Bool :=
  keys.any (fun k =>
    ciStarts k t && boundaryAt (advPrev none t k.length) (t.drop k.length))

/-- Spec-side stop offset: the index of the first non-blank terminator line
(or the length when there is none). -/
def sectionStop (keys : List Str) (ls : List Str) : Nat :=
  ls.findIdx (fun l => jsTrim l ≠ [] && termStarts keys (jsTrim l))

/- =====================================================================
   Status Report Parser  (App.jsx lines 93-231: `deriveStatusTag`,
   `parseReport`; src/unnamed/part_005 lines 172-229: the second variant
   `deriveStatusTag` and `parseNightReport`, whose line loop is textually
   identical to `parseReport`'s)
   ===================================================================== -/

structure StatusEntry where
  code : Str
  title : Str
  input : Str
  etr : Str
  notes : List Str
  tag : Str
deriving DecidableEq, Repr

/-- A JS object used as a string-keyed map: an association list in insertion
order; assigning an existing key replaces its value in place. -/
def setA {α : Type} (k : Str) (v : α) : List (Str × α) → List (Str × α)
  | [] => [(k, v)]
  | (k2, v2) :: rest =>
    if k2 = k then (k2, v) :: rest else (k2, v2) :: setA k v rest

def getA {α : Type} (k : Str) : List (Str × α) → Option α
  | [] => none
  | (k2, v2) :: rest => if k2 = k then some v2 else getA k rest

/-- In-place update of the value stored at a key (`entries[current].x = …`);
the callers only ever use it with a key that is present. -/
def modifyA {α : Type} (k : Str) (f : α → α) : List (Str × α) → List (Str × α)
  | [] => []
  | (k2, v2) :: rest =>
    if k2 = k then (k2, f v2) :: rest else (k2, v2) :: modifyA k f rest

def keysA {α : Type} (m : List (Str × α)) : List Str := m.map (fun p => p.1)

def mapValsA {α β : Type} (f : α → β) (m : List (Str × α)) : List (Str × β) :=
  m.map (fun p => (p.1, f p.2))

/-- `[a, b, c, ...].join(" ")`. -/
def joinSp (ls : List Str) : Str :=
  match ls with
  | [] => []
  | [x] => x
  | x :: r => x ++ ' ' :: joinSp r

/-- `allText.replace` of the curly/straight quote class with the empty
string (the class holds the two curly double quotes, the two curly single
quotes, the straight double quote and the apostrophe). -/
def stripQuotes (s : Str) : Str :=
  s.filter (fun c =>
    !(c = '“' || c = '”' || c = '‘' || c = '’' || c = '"' || c = '\''))

/-- `\b<pat>\b` (case-insensitive) somewhere in `s`, for a literal `pat`
that begins and ends with a word character (all the patterns used here do),
so that the two boundaries amount to: previous character absent/non-word,
next character absent/non-word. -/
def hasWord (pat : Str) (s : Str) : Bool :=
  scanPos (fun prev t =>
    boundaryAt prev t && ciStarts pat t && boundaryAfter (t.drop pat.length)) none s

/-- One attempt of `\b(post\s*phase\s*rcv|recovery)\b` at a position (the
greedy `\s*` cannot backtrack: `p`/`r` are not whitespace). -/
def recoveryAt (prev : Option Char) (t : Str) : Bool :=
  boundaryAt prev t &&
    ((ciStarts (strL "post") t &&
      (let r1 := dropWS (t.drop 4)
       ciStarts (strL "phase") r1 &&
         (let r2 := dropWS (r1.drop 5)
          ciStarts (strL "rcv") r2 && boundaryAfter (r2.drop 3)))) ||
     (ciStarts (strL "recovery") t && boundaryAfter (t.drop 8)))

def hasRecovery (s : Str) : Bool := scanPos recoveryAt none s

/-- `/(major serv|phase\b)/i.test(title)`. -/
def inPhaseTest (title : Str) : Bool :=
  scanPos (fun _ t => ciStarts (strL "major serv") t) none title ||
    scanPos (fun _ t => ciStarts (strL "phase") t && boundaryAfter (t.drop 5)) none title

/-- One attempt of `/\s-\s*s(\b|$)/i`: a single whitespace character, a
hyphen, optional whitespace, the letter s, then a word boundary or the end
(together: next character absent or non-word). -/
def servAt (t : Str) : Bool :=
  match t with
  | c :: r =>
    isWS c &&
      (match r with
       | '-' :: r2 =>
         (match dropWS r2 with
          | x :: r3 => x.toLower = 's' && boundaryAfter r3
          | [] => false)
       | _ => false)
  | [] => false

def hasServMarker (s : Str) : Bool := scanPos (fun _ t => servAt t) none s

/-- `deriveStatusTag` (App.jsx 93-129) — the canonical, AOG-aware variant.
The combined text takes title, input, etr and every note, joined with
spaces; quotes are removed and the text lowercased before matching. -/
def deriveStatusTag (e : StatusEntry) : Str :=
  let normalized := toLowerS (stripQuotes (joinSp ([e.title, e.input, e.etr] ++ e.notes)))
  let isAOG := hasWord (strL "aog") normalized
  let isUS := hasWord (strL "u/s") normalized || hasWord (strL "us") normalized
  let hasDefectOrGR := hasWord (strL "defect") normalized ||
    hasWord (strL "rect") normalized || hasWord (strL "gr") normalized
  let inPhase := inPhaseTest e.title
  let recovery := hasRecovery normalized
  if isAOG then strL "aog"
  else if isUS || hasDefectOrGR then strL "rectification"
  else if inPhase then strL "in-phase"
  else if recovery then strL "recovery"
  else if hasServMarker e.title then strL "serviceable"
  else strL "serviceable"

/-- The marker-character class of the report header
(greater-than, asterisk, whitespace, hyphen). -/
def isMarkChar (c : Char) : Bool := c = '>' || c = '*' || c = '-' || isWS c

/-- The report header regex (caret, marker-class star, optional asterisk,
ws-star, `([SF]\d)`, ws-star, hyphen, ws-star, dot-plus to end, under `/i`).
The class run is taken maximally — a shorter run would have to resume on a
class character, never `[SF]` — after which the optional asterisk and the
whitespace are necessarily empty.  The returned tail is the capture after
the caller's `.trim()`, which equals the trim of everything after the
hyphen (the greedy `\s*` interplay can at most shift whitespace between the
gap and the capture). -/
def reportHeader (line : Str) : Option (Str × Str) :=
  let t := line.dropWhile isMarkChar
  match codeStart t with
  | none => none
  | some (code, r0) =>
    match dropWS r0 with
    | '-' :: r1 => if r1 = [] then none else some (code, jsTrim r1)
    | _ => none

/-- `/^<pat>\s*(.+)$/i` field match (`Input:` / `ETR:` lines): the literal,
then the trimmed non-empty tail (match fails only when nothing at all
follows the literal). -/
def fieldAfter (pat : Str) (line : Str) : Option Str :=
  if ciStarts pat line then
    let r := line.drop pat.length
    if r = [] then none else some (jsTrim r)
  else none

structure ReportState where
  entries : List (Str × StatusEntry)
  current : Option Str
deriving DecidableEq, Repr

/-- `entries[current].notes.push(n)`. -/
def pushNote (cur : Str) (n : Str) (st : ReportState) : ReportState :=
  { st with entries :=
      modifyA cur (fun e => { e with notes := e.notes ++ [n] }) st.entries }

/-- One iteration of the line loop shared by `parseReport` (App.jsx
173-218) and `parseNightReport` (part_005 203-225); `line` is already
trimmed by the caller's `.map(l => l.trim())`. -/
def reportStep (st : ReportState) (line : Str) : ReportState :=
  if line = [] then st
  else match reportHeader line with
  | some (code, tail) =>
    { entries := setA code
        { code := code, title := code ++ strL " - " ++ tail,
          input := [], etr := [], notes := [], tag := [] } st.entries,
      current := some code }
  | none =>
    match st.current with
    | none => st
    | some cur =>
      match fieldAfter (strL "Input:") line with
      | some v =>
        { st with entries := modifyA cur (fun e => { e with input := v }) st.entries }
      | none =>
      match fieldAfter (strL "ETR:") line with
      | some v =>
        { st with entries := modifyA cur (fun e => { e with etr := v }) st.entries }
      | none =>
      if line.head? = some '>' then
        pushNote cur (dropWS (line.drop 1)) st
      else if line.head? = some '-' then
        pushNote cur (dropWS (line.dropWhile (fun c => c = '-'))) st
      else if toLowerS line = strL "requirements" then
        pushNote cur (strL "Requirements:") st
      else st

/-- The shared header/field line loop over the whole report text. -/
def statusEntriesOf (text : Str) : List (Str × StatusEntry) :=
  (((splitNL (stripCR text)).map jsTrim).foldl reportStep ⟨[], none⟩).entries

/-- `/^ETR\s*:/i.test(n)`. -/
def etrNoteTest (n : Str) : Bool :=
  ciStarts (strL "etr") n &&
    (match dropWS (n.drop 3) with
     | ':' :: _ => true
     | _ => false)

/-- The ETR promotion of `parseReport` (App.jsx 221-226): when `etr` is
still empty, take the first note matching `/^ETR\s*:/i`, strip the prefix
up to and including the colon plus following whitespace, and trim. -/
def promoteEtr (e : StatusEntry) : StatusEntry :=
  if e.etr = [] then
    match e.notes.find? etrNoteTest with
    | some n => { e with etr := jsTrim ((dropWS (n.drop 3)).drop 1) }
    | none => e
  else e

/-- `parseReport` (App.jsx 162-231). -/
def parseReport (text : Str) : List (Str × StatusEntry) :=
  mapValsA (fun e =>
    let e2 := promoteEtr e
    { e2 with tag := deriveStatusTag e2 }) (statusEntriesOf text)

/-- Literal (case-sensitive) prefix test, for the patterns of the second
`deriveStatusTag` variant, which are applied to already-lowercased text
without the `/i` flag. -/
def startsLit : Str → Str → Bool
  | [], _ => true
  | _ :: _, [] => false
  | p :: ps, c :: cs => p = c && startsLit ps cs

def containsLit (pat s : Str) : Bool := scanPos (fun _ t => startsLit pat t) none s

/-- `\b<pat>` for a literal starting with a word character. -/
def hasBoundLit (pat s : Str) : Bool :=
  scanPos (fun prev t => boundaryAt prev t && startsLit pat t) none s

/-- `/\bgr\b/` (case-sensitive, on lowercased text). -/
def hasGrLit (s : Str) : Bool :=
  scanPos (fun prev t =>
    boundaryAt prev t && startsLit (strL "gr") t && boundaryAfter (t.drop 2)) none s

/-- The second `deriveStatusTag` variant (src/unnamed/part_005 172-194): no
AOG rule, colon-anchored defect/rect markers, and only title+notes feed the
match (joined notes, both lowercased). -/
def deriveStatusTagV2 (e : StatusEntry) : Str :=
  let title := toLowerS e.title
  let notes := toLowerS (joinSp e.notes)
  let hasDefect := hasBoundLit (strL "defect:") title || hasBoundLit (strL "defect:") notes ||
    hasBoundLit (strL "rect:") title || hasBoundLit (strL "rect:") notes ||
    hasGrLit title || hasGrLit notes
  let inPhase := containsLit (strL "major serv") title ||
    scanPos (fun _ t => startsLit (strL "phase") t && boundaryAfter (t.drop 5)) none title
  let recovery := containsLit (strL "post phase rcv") title ||
    containsLit (strL "recovery") title ||
    containsLit (strL "post phase rcv") notes ||
    containsLit (strL "recovery") notes
  if hasDefect then strL "rectification"
  else if inPhase then strL "in-phase"
  else if recovery then strL "recovery"
  else if hasServMarker e.title then strL "serviceable"
  else strL "serviceable"

/-- `parseNightReport` (part_005 196-229): same line loop, no ETR
promotion, tags from the second variant. -/
def parseNightReport (text : Str) : List (Str × StatusEntry) :=
  mapValsA (fun e => { e with tag := deriveStatusTagV2 e }) (statusEntriesOf text)

/- =====================================================================
   Claim C6
   ===================================================================== -/

/-- The status-tag computation exactly as the claim words it: evaluated on
the combined lowercased title+notes text only (no input, no etr). -/
def claimStatusTag (e : StatusEntry) : Str :=
  let combined := toLowerS (stripQuotes (joinSp (e.title :: e.notes)))
  if hasWord (strL "aog") combined then strL "aog"
  else if hasWord (strL "u/s") combined || hasWord (strL "us") combined ||
          hasWord (strL "defect") combined || hasWord (strL "rect") combined ||
          hasWord (strL "gr") combined then strL "rectification"
  else if inPhaseTest e.title then strL "in-phase"
  else if hasRecovery combined then strL "recovery"
  else strL "serviceable"

/-- The status-tag computation as the amended claim words it: same priority
order, but evaluated on the combined lowercased (quote-stripped)
title+input+etr+notes text, with the in-phase rule reading the title. -/
def specStatusTag (e : StatusEntry) : Str :=
  let combined := toLowerS (stripQuotes (joinSp ([e.title, e.input, e.etr] ++ e.notes)))
  if hasWord (strL "aog") combined then strL "aog"
  else if hasWord (strL "u/s") combined || hasWord (strL "us") combined ||
          hasWord (strL "defect") combined || hasWord (strL "rect") combined ||
          hasWord (strL "gr") combined then strL "rectification"
  else if inPhaseTest e.title then strL "in-phase"
  else if hasRecovery combined then strL "recovery"
  else strL "serviceable"

/- =====================================================================
   Handover (HOTO) Parser  (App.jsx lines 314-400; the clean copy in
   src/unnamed/part_006 lines 1-71 differs only in shortened header
   patterns, and the second copy there is the byte-corrupted duplicate
   whose glyph patterns never match — App.jsx is embedded)
   ===================================================================== -/

structure HotoGroup where
  tag : Str
  items : List Str
deriving DecidableEq, Repr

structure HotoExtra where
  proj14 : List Str
  proj28 : List Str
  proj56 : List Str
  proj112 : List Str
  proj112150 : List Str
  proj180 : List Str
  mee : List Str
  eoss : List Str
  bru : List Str
  probe : List Str
  aom : List Str
  lessons : List Str
deriving DecidableEq, Repr

def emptyExtra : HotoExtra := ⟨[], [], [], [], [], [], [], [], [], [], [], []⟩

inductive HSection
  | completed
  | outstanding
  | proj14
  | proj28
  | proj56
  | proj112150
  | proj112
  | proj180
  | mee
  | eoss
  | bru
  | probe
  | aom
  | lessons
deriving DecidableEq, Repr

structure HotoState where
  completed : List (Str × List Str)
  outstanding : List (Str × HotoGroup)
  extra : HotoExtra
  sect : Option HSection
  cur : Option Str
deriving DecidableEq, Repr

/-- `isMajorHeader`: a bullet/box/disc glyph followed by whitespace, or a
green/red square at the start. -/
def isMajorHeader (s : Str) : Bool :=
  (match s with
   | c :: d :: _ => (c = '•' || c = '■' || c = '●') && isWS d
   | _ => false) ||
  (match s with
   | c :: _ => c = '🟩' || c = '🟥'
   | _ => false)

/-- A sequence of case-insensitive literals separated by `\s*`, after a
fixed leading glyph (`^<glyph>\s*p1\s*p2…`; the greedy `\s*` cannot
backtrack because no literal starts with whitespace). -/
def ciSeq : List Str → Str → Bool
  | [], _ => true
  | p :: ps, t => ciStarts p t && ciSeq ps (dropWS (t.drop p.length))

def hdrSeq (g : Char) (pats : List Str) (s : Str) : Bool :=
  match s with
  | c :: r => c = g && ciSeq pats (dropWS r)
  | [] => false

/-- `/🟩\s*Job Completed/i` — an unanchored substring search. -/
def greenCompleted (s : Str) : Bool :=
  scanPos (fun _ t =>
    match t with
    | c :: r => c = '🟩' && ciStarts (strL "Job Completed") (dropWS r)
    | [] => false) none s

/-- `/🟥\s*Outstanding/i` — an unanchored substring search. -/
def redOutstanding (s : Str) : Bool :=
  scanPos (fun _ t =>
    match t with
    | c :: r => c = '🟥' && ciStarts (strL "Outstanding") (dropWS r)
    | [] => false) none s

/-- `/^•\s*112D\/150H?rl?y\s*PROJECTION/i`.  The two optional letters are
deterministic: an `h` not taken would have to match `r`, an `l` not taken
would have to match `y`. -/
def hdr112150 (s : Str) : Bool :=
  match s with
  | '•' :: r =>
    let r1 := dropWS r
    ciStarts (strL "112D/150") r1 &&
      (let r2 := r1.drop 8
       let r3 := if ciStarts (strL "h") r2 then r2.drop 1 else r2
       ciStarts (strL "r") r3 &&
         (let r4 := r3.drop 1
          let r5 := if ciStarts (strL "l") r4 then r4.drop 1 else r4
          ciStarts (strL "y") r5 &&
            ciStarts (strL "PROJECTION") (dropWS (r5.drop 1))))
  | _ => false

/-- `startSection` (App.jsx 340-356), returning the section the line
switches to, in source order (the 112D/150Hrly pattern before plain 112D). -/
def hotoStartSection (line : Str) : Option HSection :=
  if greenCompleted line then some .completed
  else if redOutstanding line then some .outstanding
  else if hdrSeq '•' [strL "14D", strL "SERV", strL "PROJECTION"] line then some .proj14
  else if hdrSeq '•' [strL "28D", strL "SERV", strL "PROJECTION"] line then some .proj28
  else if hdrSeq '•' [strL "56D", strL "SERV", strL "PROJECTION"] line then some .proj56
  else if hdr112150 line then some .proj112150
  else if hdrSeq '•' [strL "112D", strL "SERV", strL "PROJECTION"] line then some .proj112
  else if hdrSeq '•' [strL "180D", strL "SERV", strL "PROJECTION"] line then some .proj180
  else if hdrSeq '■' [strL "MEE"] line then some .mee
  else if hdrSeq '■' [strL "EOSS", strL "Status"] line then some .eoss
  else if hdrSeq '■' [strL "BRU", strL "Status"] line then some .bru
  else if hdrSeq '■' [strL "Probe", strL "Status"] line then some .probe
  else if hdrSeq '●' [strL "AOM"] line then some .aom
  else if hdrSeq '●' [strL "Lesson learnt"] line then some .lessons
  else none

/-- The effect of a major-header line: switch section when some pattern
matches (resetting the current code for completed/outstanding), otherwise
leave the state untouched (the line is still consumed). -/
def applyStart (st : HotoState) (line : Str) : HotoState :=
  match hotoStartSection line with
  | none => st
  | some HSection.completed => { st with sect := some .completed, cur := none }
  | some HSection.outstanding => { st with sect := some .outstanding, cur := none }
  | some sec => { st with sect := some sec }

/-- The code-line match inside completed/outstanding:
`/^([FS]\d)(?:\s*\(([^)]+)\))?.*$/i`.  It succeeds exactly when the line
starts with a unit code (the optional group and the dot-star swallow
everything else); the optional group captures the parenthetical right after
the code: optional whitespace, `(`, a non-empty run without `)`, then `)`. -/
def hotoCodeMatch (line : Str) : Option (Str × Option Str) :=
  match codeStart line with
  | none => none
  | some (code, r0) =>
    let tag := match dropWS r0 with
      | '(' :: r1 =>
        let inner := r1.takeWhile (fun c => c ≠ ')')
        if inner ≠ [] ∧ (r1.drop inner.length).head? = some ')' then some inner
        else none
      | _ => none
    some (code, tag)

/-- `/^[-•>]/.test(line)`. -/
def bulletStart (line : Str) : Bool :=
  match line with
  | c :: _ => c = '-' || c = '•' || c = '>'
  | [] => false

/-- `line.replace(/^[-•]\s*/, "").trim().replace(/^>\s*/, "> ")`. -/
def hotoItemClean (line : Str) : Str :=
  let clean := jsTrim (match line with
    | c :: r => if c = '-' || c = '•' then dropWS r else line
    | [] => line)
  match clean with
  | '>' :: r => '>' :: ' ' :: dropWS r
  | _ => clean

/-- `line.replace(/^[-•]\s*/, "").replace(/^>\s*/, "").trim()`. -/
def hotoExtraClean (line : Str) : Str :=
  let c1 := match line with
    | c :: r => if c = '-' || c = '•' then dropWS r else line
    | [] => line
  let c2 := match c1 with
    | '>' :: r => dropWS r
    | _ => c1
  jsTrim c2

/-- Insert an empty value for a key only when absent
(`if (!out.completed[code]) out.completed[code] = []`). -/
def ensureA {α : Type} (k : Str) (v0 : α) (m : List (Str × α)) : List (Str × α) :=
  if (getA k m).isSome then m else setA k v0 m

/-- The tag update of an outstanding group:
`tag = mCode[2]?.trim() || existing || ""`. -/
def newTag (tagOpt : Option Str) (old : Str) : Str :=
  match tagOpt with
  | some t => if jsTrim t ≠ [] then jsTrim t else old
  | none => old

def pushExtra (x : HotoExtra) (sec : HSection) (v : Str) : HotoExtra :=
  match sec with
  | .proj14 => { x with proj14 := x.proj14 ++ [v] }
  | .proj28 => { x with proj28 := x.proj28 ++ [v] }
  | .proj56 => { x with proj56 := x.proj56 ++ [v] }
  | .proj112 => { x with proj112 := x.proj112 ++ [v] }
  | .proj112150 => { x with proj112150 := x.proj112150 ++ [v] }
  | .proj180 => { x with proj180 := x.proj180 ++ [v] }
  | .mee => { x with mee := x.mee ++ [v] }
  | .eoss => { x with eoss := x.eoss ++ [v] }
  | .bru => { x with bru := x.bru ++ [v] }
  | .probe => { x with probe := x.probe ++ [v] }
  | .aom => { x with aom := x.aom ++ [v] }
  | .lessons => { x with lessons := x.lessons ++ [v] }
  | .completed => x
  | .outstanding => x

/-- Append an item to the current completed group. -/
def pushCompleted (st : HotoState) (cur : Str) (v : Str) : HotoState :=
  { st with completed := modifyA cur (fun its => its ++ [v]) st.completed }

/-- Append an item to the current outstanding group. -/
def pushOutstanding (st : HotoState) (cur : Str) (v : Str) : HotoState :=
  { st with outstanding :=
      modifyA cur (fun g => { g with items := g.items ++ [v] }) st.outstanding }

/-- The shared body for a non-header line inside the completed or
outstanding section (App.jsx 367-391). -/
def hotoContent (st : HotoState) (isCompleted : Bool) (line : Str) : HotoState :=
  match hotoCodeMatch line with
  | some (code, tagOpt) =>
    if isCompleted then
      { st with cur := some code, completed := ensureA code [] st.completed }
    else
      let m1 := ensureA code ({ tag := [], items := [] } : HotoGroup) st.outstanding
      let m2 := modifyA code (fun g => { g with tag := newTag tagOpt g.tag }) m1
      { st with cur := some code, outstanding := m2 }
  | none =>
    match st.cur with
    | some cur =>
      if bulletStart line then
        if isCompleted then pushCompleted st cur (hotoItemClean line)
        else pushOutstanding st cur (hotoItemClean line)
      else
        if isCompleted then pushCompleted st cur line
        else pushOutstanding st cur line
    | none => st

/-- One iteration of the HOTO line loop (App.jsx 358-397). -/
def hotoStep (st : HotoState) (raw : Str) : HotoState :=
  let line := jsTrim raw
  if line = [] then st
  else if isMajorHeader line then applyStart st line
  else match st.sect with
  | some HSection.completed => hotoContent st true line
  | some HSection.outstanding => hotoContent st false line
  | some sec => { st with extra := pushExtra st.extra sec (hotoExtraClean line) }
  | none => st

structure HotoOut where
  completed : List (Str × List Str)
  outstanding : List (Str × HotoGroup)
  extra : HotoExtra
deriving DecidableEq, Repr

/-- `parseHOTO` (App.jsx 314-400). -/
def parseHOTO (text : Str) : HotoOut :=
  let st := (splitNL (stripCR text)).foldl hotoStep
    { completed := [], outstanding := [], extra := emptyExtra,
      sect := none, cur := none }
  { completed := st.completed, outstanding := st.outstanding, extra := st.extra }

/- =====================================================================
   Telegram Defect Block Parser  (App.jsx lines 257-309)
   ===================================================================== -/

/-- `text.split(/\n{2,}/)`: split on maximal runs of two or more newlines
(single newlines stay inside a piece).  The fuel only bounds the recursion;
every step consumes at least one character, so `length + 1` always
suffices. -/
def splitNNGo : Nat → Str → List Str
  | 0, _ => [[]]
  | _ + 1, [] => [[]]
  | fuel + 1, '\n' :: '\n' :: rest =>
    [] :: splitNNGo fuel (rest.dropWhile (fun c => c = '\n'))
  | fuel + 1, c :: cs =>
    match splitNNGo fuel cs with
    | [] => [[c]]
    | p :: ps => (c :: p) :: ps

def splitNN (s : Str) : List Str := splitNNGo (s.length + 1) s

/-- `lines.join("\n\n")`. -/
def joinNN (ls : List Str) : Str :=
  match ls with
  | [] => []
  | [l] => l
  | l :: r => l ++ '\n' :: '\n' :: joinNN r

/-- A line of the form ws-star, unit code, ws-star (one line of the
multiline `/^\s*([FS]\d)\s*$/im` test). -/
def bareCode (l : Str) : Option Str :=
  match codeStart (dropWS l) with
  | some (code, r) => if r.all isWS then some code else none
  | none => none

/-- `b.match(/^\s*([FS]\d)\s*$/im)`: with the `m` flag the anchors match at
line boundaries, and because `\s*` can only cross all-whitespace lines, the
regex matches exactly when some line of the block is a bare unit code; the
first such line provides the capture. -/
def blockCode (b : Str) : Option Str := (splitNL b).findSome? bareCode

structure TgRec where
  code : Str
  lines : List Str
deriving DecidableEq, Repr

/-- `pushCurrent` (`if (current && current.code) byCode[current.code] =
current`). -/
def tgPush (m : List (Str × TgRec)) (cur : Option TgRec) : List (Str × TgRec) :=
  match cur with
  | some c => if c.code ≠ [] then setA c.code c m else m
  | none => m

/-- One iteration of the block loop (App.jsx 268-273): a block carrying a
bare code line stores the previous record and opens a new one; every block
(the code block included) is appended to the open record's lines. -/
def tgStep (st : List (Str × TgRec) × Option TgRec) (b : Str) :
    List (Str × TgRec) × Option TgRec :=
  match blockCode b with
  | some code => (tgPush st.1 st.2, some { code := code, lines := [b] })
  | none =>
    match st.2 with
    | none => (st.1, none)
    | some c => (st.1, some { c with lines := c.lines ++ [b] })

/-- The grouping pass of `parseTelegramDefects`. -/
def tgGroups (text : Str) : List (Str × TgRec) :=
  let blocks := ((splitNN (stripCR text)).map jsTrim).filter (fun b => b ≠ [])
  let p := blocks.foldl tgStep ([], none)
  tgPush p.1 p.2

/-- The shared `\s*([^\n]+)` tail of the single-line field patterns,
already trimmed as the callers do.  When non-whitespace follows, the
capture is the rest of that line; when only whitespace follows, the greedy
`\s*` backtracks and the capture is pure whitespace (trimming to empty) —
unless everything left is newlines, in which case this occurrence of the
pattern fails. -/
def lineCapture (t : Str) : Option Str :=
  let w := t.takeWhile isWS
  let r := t.drop w.length
  if r ≠ [] then some (jsTrim (r.takeWhile (fun c => c ≠ '\n')))
  else if w.any (fun c => c ≠ '\n') then some []
  else none

/-- Leftmost-occurrence search: try the matcher at every suffix. -/
def firstSome (f : Str → Option Str) : Str → Option Str
  | [] => f []
  | c :: cs =>
    match f (c :: cs) with
    | some v => some v
    | none => firstSome f cs

/-- Leftmost-occurrence search that tracks the previous character (for
patterns with a leading `\b`). -/
def firstSomeB (f : Option Char → Str → Option Str) :
    Option Char → Str → Option Str
  | prev, [] => f prev []
  | prev, c :: cs =>
    match f prev (c :: cs) with
    | some v => some v
    | none => firstSomeB f (some c) cs

/-- One attempt of a `<label>\s*([^\n]+)` pattern (`Rect:`, `ETR:`,
`Workcenter:`, `Prime Trade:`, `System:`), with an optional leading word
boundary. -/
def labelLineAt (pat : Str) (needB : Bool) (prev : Option Char) (t : Str) :
    Option Str :=
  if (!needB || boundaryAt prev t) && ciStarts pat t then
    lineCapture (t.drop pat.length)
  else none

def openQuote (c : Char) : Bool := c = '‘' || c = '\'' || c = '"'

def closeQuote (c : Char) : Bool := c = '’' || c = '\'' || c = '"'

/-- One attempt of the unserviceable-since pattern: `Date/Time`, optional
whitespace, an optional opening quote, `U/S`, an optional closing quote,
whitespace, colon, then the line capture (the optional quotes are
deterministic — not taking a present quote would pit it against `U`). -/
def usAt (t : Str) : Option Str :=
  if ciStarts (strL "Date/Time") t then
    let r1 := dropWS (t.drop 9)
    let r2 := match r1 with
      | c :: r => if openQuote c then r else r1
      | [] => r1
    if ciStarts (strL "U/S") r2 then
      let r3 := r2.drop 3
      let r4 := match r3 with
        | c :: r => if closeQuote c then r else r3
        | [] => r3
      match dropWS r4 with
      | ':' :: r6 => lineCapture r6
      | _ => none
    else none
  else none

/-- `[A-Z][a-z]+:` under `/i`: a letter, a non-empty maximal letter run,
then a colon (the greedy run cannot backtrack — a letter is never the
colon). -/
def labelWordColon (u : Str) : Bool :=
  match u with
  | c :: r =>
    isAlphaChar c &&
      (let run := r.takeWhile isAlphaChar
       1 ≤ run.length && (r.drop run.length).head? = some ':')
  | [] => false

/-- The defect-description terminator
`(?:\n{1,2}[A-Z][a-z]+:|\n{2,}|$)`: end of text, a blank line, or one-two
newlines followed by a capitalized field label. -/
def defectTermAt (t : Str) : Bool :=
  match t with
  | [] => true
  | '\n' :: r =>
    (match r with
     | '\n' :: _ => true
     | _ => labelWordColon r)
  | _ => false

/-- Lazy `([\s\S]*?)` capture: the shortest prefix whose end satisfies the
terminator (which always holds at the end of the text). -/
def lazyUntil (term : Str → Bool) : Str → Str
  | [] => []
  | c :: cs => if term (c :: cs) then [] else c :: lazyUntil term cs

/-- One attempt of the defect pattern
(word boundary, `Defect:`, greedy `\s*`, lazy capture to the terminator). -/
def defectAt (prev : Option Char) (t : Str) : Option Str :=
  if boundaryAt prev t && ciStarts (strL "Defect:") t then
    some (jsTrim (lazyUntil defectTermAt (dropWS (t.drop 7))))
  else none

/-- One attempt of the recovery line `(^|\n)\s*Recovery\s*$` (no `m` flag:
the final `$` is the end of the whole text): anchored at the start or just
after a newline, optional whitespace, `Recovery`, then only whitespace to
the end. -/
def recEndAt (prev : Option Char) (t : Str) : Bool :=
  (match prev with
   | none => true
   | some c => c = '\n') &&
    (let r := dropWS t
     ciStarts (strL "Recovery") r && (r.drop 8).all isWS)

def recoveryLineEnd (s : Str) : Bool := scanPos recEndAt none s

/-- `/post\s*phase\s*rcv/i` anywhere. -/
def pprAt (t : Str) : Bool :=
  ciStarts (strL "post") t &&
    (let r1 := dropWS (t.drop 4)
     ciStarts (strL "phase") r1 &&
       (let r2 := dropWS (r1.drop 5)
        ciStarts (strL "rcv") r2))

def hasPPR (s : Str) : Bool := scanPos (fun _ t => pprAt t) none s

/-- `G\/?run requirement:` at a position (optional slash is deterministic),
returning the remainder after the label. -/
def grLabelAt (t : Str) : Option Str :=
  match t with
  | c :: r =>
    if ciChar c 'g' then
      let r2 := match r with
        | '/' :: rr => rr
        | _ => r
      if ciStarts (strL "run requirement:") r2 then some (r2.drop 16) else none
    else none
  | [] => none

/-- Ground-run capture terminator `(?:\n{2,}|FCF requirement:|Workcenter:|$)`. -/
def grTermAt (t : Str) : Bool :=
  match t with
  | [] => true
  | '\n' :: '\n' :: _ => true
  | _ => ciStarts (strL "FCF requirement:") t || ciStarts (strL "Workcenter:") t

/-- Flight-check capture terminator
`(?:\n{2,}|G\/?run requirement:|Workcenter:|$)`. -/
def fcfTermAt (t : Str) : Bool :=
  match t with
  | [] => true
  | '\n' :: '\n' :: _ => true
  | _ => (grLabelAt t).isSome || ciStarts (strL "Workcenter:") t

def grCapAt (t : Str) : Option Str :=
  (grLabelAt t).map (fun rest => lazyUntil grTermAt (dropWS rest))

def fcfCapAt (t : Str) : Option Str :=
  if ciStarts (strL "FCF requirement:") t then
    some (lazyUntil fcfTermAt (dropWS (t.drop 16)))
  else none

/-- `l.replace` of the leading `\s*[-•]\s*` bullet (only when the bullet is
present), as applied to each captured requirement line. -/
def bulletStrip (l : Str) : Str :=
  match dropWS l with
  | c :: r => if c = '-' || c = '•' then dropWS r else l
  | [] => l

/-- `body.split("\n").map(strip).map(trim).filter(Boolean)`. -/
def bulletLines (body : Str) : List Str :=
  ((splitNL body).map (fun l => jsTrim (bulletStrip l))).filter (fun l => l ≠ [])

structure DefectRec where
  code : Str
  lines : List Str
  us : Str
  defect : Str
  rect : Str
  etr : Str
  recovery : Bool
  gr : List Str
  fcf : List Str
  workcenter : Str
  prime : Str
  system : Str
deriving DecidableEq, Repr

/-- The per-record field extraction of `parseTelegramDefects`
(App.jsx 276-306), over the record's lines joined with blank lines. -/
def extractFields (r : TgRec) : DefectRec :=
  let all := joinNN r.lines
  { code := r.code, lines := r.lines,
    us := (firstSome usAt all).getD [],
    defect := (firstSomeB defectAt none all).getD [],
    rect := (firstSomeB (labelLineAt (strL "Rect:") true) none all).getD [],
    etr := (firstSomeB (labelLineAt (strL "ETR:") true) none all).getD [],
    recovery := recoveryLineEnd all || hasPPR all,
    gr := match firstSome grCapAt all with
      | some b => bulletLines b
      | none => [],
    fcf := match firstSome fcfCapAt all with
      | some b => bulletLines b
      | none => [],
    workcenter := (firstSomeB (labelLineAt (strL "Workcenter:") false) none all).getD [],
    prime := (firstSomeB (labelLineAt (strL "Prime Trade:") false) none all).getD [],
    system := (firstSomeB (labelLineAt (strL "System:") false) none all).getD [] }

/-- `parseTelegramDefects` (App.jsx 257-309). -/
def parseTelegramDefects (text : Str) : List (Str × DefectRec) :=
  mapValsA extractFields (tgGroups text)

/- =====================================================================
   Claim C8
   ===================================================================== -/

def AllWS (w : Str) : Prop := ∀ c ∈ w, isWS c = true

/-- Spec-side reading of the recovery-line pattern: somewhere after the
start of the text or a newline, optional whitespace, the word `recovery`
(case-insensitively), followed only by whitespace up to the end of the
whole text. -/
def RecEndProp (s : Str) : Prop :=
  ∃ a w1 r w2, s = a ++ w1 ++ r ++ w2 ∧
    (a = [] ∨ a.getLast? = some '\n') ∧ AllWS w1 ∧
    toLowerS r = strL "recovery" ∧ AllWS w2

/-- Spec-side reading of the `post phase rcv` phrase: the three words in
order, case-insensitively, separated by optional whitespace, anywhere. -/
def PPRProp (s : Str) : Prop :=
  ∃ a p1 w1 p2 w2 p3 b, s = a ++ p1 ++ w1 ++ p2 ++ w2 ++ p3 ++ b ∧
    toLowerS p1 = strL "post" ∧ AllWS w1 ∧ toLowerS p2 = strL "phase" ∧
    AllWS w2 ∧ toLowerS p3 = strL "rcv"

def lastOr (prev : Option Char) (a : Str) : Option Char :=
  match a.getLast? with
  | some c => some c
  | none => prev

/-- The standalone-Recovery-line test exactly as the claim words it: some
line of the text, wherever it appears, trims to the word `Recovery`
(case-insensitively). -/
def hasRecoveryLine (s : Str) : Bool :=
  (splitNL s).any (fun l => toLowerS (jsTrim l) = strL "recovery")

/-- A concrete defect record used to witness the amended C8 statement
(the parse of `"F2\n\npost phase rcv"`). -/
def c8Rec : DefectRec :=
  { code := strL "F2", lines := [strL "F2", strL "post phase rcv"],
    us := [], defect := [], rect := [], etr := [], recovery := true,
    gr := [], fcf := [], workcenter := [], prime := [], system := [] }

/-- The completed-section item lists, looked up by code. -/
def hotoItemsC (st : HotoState) (k : Str) : Option (List Str) :=
  getA k st.completed

/-- The outstanding-section item lists, looked up by code. -/
def hotoItemsO (st : HotoState) (k : Str) : Option (List Str) :=
  (getA k st.outstanding).map HotoGroup.items

/-- A concrete HOTO state: completed section active, current code F1 with one
item already collected. -/
def c10St : HotoState :=
  { completed := [(strL "F1", [strL "done"])], outstanding := [],
    extra := emptyExtra, sect := some HSection.completed,
    cur := some (strL "F1") }

/- =====================================================================
   Claim C1
   ===================================================================== -/

/-- A unit code as the spec demands of every output-map key: uppercase F or
S followed by one decimal digit. -/
def isUnitCode : Str → Bool
  | [c1, c2] => (c1 = 'F' || c1 = 'S') && isDigitChar c2
  | _ => false

/-- The C1 invariant on the HOTO fold state: every key of the completed and
outstanding maps is a unit code. -/
def HKeysOK (st : HotoState) : Prop :=
  (∀ k ∈ keysA st.completed, isUnitCode k = true) ∧
  (∀ k ∈ keysA st.outstanding, isUnitCode k = true)

/-- The C1 invariant on the telegram fold state: every stored key and the
open record's code (when one is open) is a unit code. -/
def TgOK (p : List (Str × TgRec) × Option TgRec) : Prop :=
  (∀ k ∈ keysA p.1, isUnitCode k = true) ∧
  (∀ c, p.2 = some c → isUnitCode c.code = true)

theorem splitNL_ne_nil (s : Str) : splitNL s ≠ [] := by
  induction s with
  | nil => simp [splitNL]
  | cons c cs ih =>
    simp only [splitNL]
    split
    · simp
    · split <;> simp

/-- C3, counterexample: contrary to the claim, the empty input does not
yield null — the daily parser returns a record with a null date, the
placeholder label and empty collections (JS `"".split("\n")` is `[""]`, so
the `!lines.length` guard never fires). -/
theorem c3_counterexample :
    parseRTSDaily 2025 (strL "") =
      some { dateISO := none, dateLabel := strL "—", missions := [], spares := [],
             healing := [], hot := [], cold := [], ops := [], notes := [] } := by
  decide

/-- C3, amended: the Daily Schedule Parser never returns null; for every
input — the empty string included — it returns a DayRecord. -/
theorem c3_amended (cy : Nat) (text : Str) :
    (parseRTSDaily cy text).isSome = true := by
  simp only [parseRTSDaily]
  split
  · next h => exact absurd h (splitNL_ne_nil _)
  · rfl

/-- C4, counterexample: `parseDateHeader "13 Aug 25 (Wed)"` does not return
the claimed label `"13 Aug (Wed)"` — only a trailing 4-digit year is ever
stripped from the label, so the two-digit `25` stays. -/
theorem c4_counterexample :
    parseDateHeader 2025 (strL "13 Aug 25 (Wed)") ≠
      { iso := some (strL "2025-08-13"), label := strL "13 Aug (Wed)" } := by
  decide

/-- C4, amended: `parseDateHeader "13 Aug 25 (Wed)"` resolves the two-digit
year to 2025 in the iso date, and returns the label `"13 Aug 25 (Wed)"`
(day, month, two-digit year and parenthetical all retained; only a trailing
four-digit year would have been stripped), for any current year. -/
theorem c4_amended (cy : Nat) :
    parseDateHeader cy (strL "13 Aug 25 (Wed)") =
      { iso := some (strL "2025-08-13"), label := strL "13 Aug 25 (Wed)" } := by
  have hm : matchDayMonth (jsTrim (sanitizeHdr (strL "13 Aug 25 (Wed)"))) =
      some (13, strL "aug", some 25) := by decide
  simp only [parseDateHeader, hm]
  decide

/-- C9, counterexample: parsing is not a function of the input text alone —
a year-less date header resolves against the calendar year at the moment of
the call (`new Date().getFullYear()`), so two invocations on the identical
input in different years disagree. -/
theorem c9_counterexample :
    parseDateHeader 2025 (strL "1 Aug") ≠ parseDateHeader 2026 (strL "1 Aug") := by
  decide

/-- C9, amended: each parser is a pure function of its input text and the
parse-time calendar year, and the Daily Schedule Parser consults the year
only through the date header of the first line: whenever the first line
parses to the same DateHeader in two invocation years, the whole parse
result coincides. -/
theorem c9_amended (cy1 cy2 : Nat) (text : Str)
    (h : parseDateHeader cy1 (firstLine text) = parseDateHeader cy2 (firstLine text)) :
    parseRTSDaily cy1 text = parseRTSDaily cy2 text := by
  simp only [parseRTSDaily]
  cases hs : splitNL (stripCR text) with
  | nil => rfl
  | cons l0 rest =>
    have hdh : parseDateHeader cy1 l0 = parseDateHeader cy2 l0 := by
      simpa [firstLine, hs] using h
    simp only [hdh]

/-- C9, witness: an input with an explicit year parses identically in 2025
and 2026. -/
theorem c9_witness :
    parseRTSDaily 2025 (strL "13 Aug 25\nF3 Spare") =
      parseRTSDaily 2026 (strL "13 Aug 25\nF3 Spare") :=
  c9_amended 2025 2026 _ (by decide)

/- =====================================================================
   Claim C2
   ===================================================================== -/

theorem jsTrim_all_ws (s : Str) (h : jsTrim s = []) : ∀ c ∈ s, isWS c = true := by
  intro c hc
  unfold jsTrim dropWS at h
  rw [List.reverse_eq_nil_iff, List.dropWhile_eq_nil_iff] at h
  rw [← List.takeWhile_append_dropWhile (fun c => isWS c) s] at hc
  rcases List.mem_append.mp hc with h1 | h2
  · exact List.mem_takeWhile_imp h1
  · exact h c (List.mem_reverse.mpr h2)

theorem mem_of_jsTrim (s : Str) (c : Char) (h : c ∈ jsTrim s) : c ∈ s := by
  unfold jsTrim dropWS at h
  have h1 := List.mem_reverse.mp h
  have h2 := (List.dropWhile_sublist _).subset h1
  have h3 := List.mem_reverse.mp h2
  exact (List.dropWhile_sublist _).subset h3

theorem dayReTest_nonws (s : Str) (h : dayReTest s = true) :
    ∃ c ∈ s, isWS c = false := by
  by_contra hall
  push_neg at hall
  have hnil : dropWS s = [] := by
    unfold dropWS
    rw [List.dropWhile_eq_nil_iff]
    intro x hx
    have := hall x hx
    simpa using this
  rw [dayReTest, hnil] at h
  simp at h

theorem jsTrim_append_ne_nil (a t : Str) (c : Char) (hc : c ∈ a)
    (hw : isWS c = false) : jsTrim (a ++ t) ≠ [] := by
  intro h
  have := jsTrim_all_ws _ h c (List.mem_append_left t hc)
  rw [this] at hw
  cases hw

theorem joinNL_cons (x : Str) (xs : List Str) : ∃ t, joinNL (x :: xs) = x ++ t := by
  cases xs with
  | nil => exact ⟨[], by simp [joinNL]⟩
  | cons y ys => exact ⟨'\n' :: joinNL (y :: ys), rfl⟩

theorem mem_dayIdxs (lines : List Str) (i : Nat) (h : i ∈ dayIdxs lines) :
    i < lines.length ∧ dayReTest (jsTrim (lines.getD i [])) = true := by
  unfold dayIdxs at h
  rcases List.mem_filter.mp h with ⟨h1, h2⟩
  exact ⟨List.mem_range.mp h1, h2⟩

theorem dayIdxs_pairwise (lines : List Str) : (dayIdxs lines).Pairwise (· < ·) :=
  (List.pairwise_lt_range _).sublist (List.filter_sublist _)

theorem sliceChunks_length (lines : List Str) (idxs : List Nat) :
    (sliceChunks lines idxs).length = idxs.length := by
  induction idxs with
  | nil => rfl
  | cons i rest ih =>
    cases rest with
    | nil => rfl
    | cons j rest2 =>
      simp only [sliceChunks, List.length_cons] at ih ⊢
      omega

theorem sliceChunks_ne_nil (lines : List Str) (idxs : List Nat)
    (hmem : ∀ i ∈ idxs, i < lines.length ∧ dayReTest (jsTrim (lines.getD i [])) = true)
    (hp : idxs.Pairwise (· < ·)) :
    ∀ ch ∈ sliceChunks lines idxs, ch ≠ [] := by
  induction idxs with
  | nil => intro ch hch; simp [sliceChunks] at hch
  | cons i rest ih =>
    intro ch hch
    obtain ⟨hi, hday⟩ := hmem i (List.mem_cons_self i rest)
    have hdrop : lines.drop i = (lines.getD i []) :: lines.drop (i + 1) := by
      rw [List.drop_eq_getElem_cons hi, ← List.getD_eq_getElem lines [] hi]
    obtain ⟨c, hcm0, hcw⟩ := dayReTest_nonws _ hday
    have hcm : c ∈ lines.getD i [] := mem_of_jsTrim _ _ hcm0
    cases rest with
    | nil =>
      simp only [sliceChunks, List.mem_singleton] at hch
      subst hch
      rw [hdrop]
      obtain ⟨t, ht⟩ := joinNL_cons (lines.getD i []) (lines.drop (i + 1))
      rw [ht]
      exact jsTrim_append_ne_nil _ _ c hcm hcw
    | cons j rest2 =>
      rcases List.mem_cons.mp hch with hhd | htl
      · subst hhd
        have hij : i < j := (List.pairwise_cons.mp hp).1 j (List.mem_cons_self j rest2)
        have htake : (lines.drop i).take (j - i) =
            (lines.getD i []) :: ((lines.drop (i + 1)).take (j - i - 1)) := by
          rw [hdrop]
          have hji : j - i = (j - i - 1) + 1 := by omega
          nth_rewrite 1 [hji]
          rw [List.take_succ_cons]
        rw [htake]
        obtain ⟨t, ht⟩ := joinNL_cons (lines.getD i []) _
        rw [ht]
        exact jsTrim_append_ne_nil _ _ c hcm hcw
      · exact ih (fun a ha => hmem a (List.mem_cons_of_mem i ha))
          ((List.pairwise_cons.mp hp).2) ch htl

theorem splitWeek_length (text : Str) :
    (splitWeekIntoDays text).length =
      (dayIdxs (splitNL (stripCR text))).length := by
  unfold splitWeekIntoDays
  rw [List.filter_eq_self.mpr, sliceChunks_length]
  intro ch hch
  have := sliceChunks_ne_nil (splitNL (stripCR text)) (dayIdxs (splitNL (stripCR text)))
    (fun i hi => mem_dayIdxs _ i hi) (dayIdxs_pairwise _) ch hch
  simpa using this

theorem parseRTSDaily_isSome (cy : Nat) (text : Str) :
    (parseRTSDaily cy text).isSome = true := by
  simp only [parseRTSDaily]
  split
  · next h => exact absurd h (splitNL_ne_nil _)
  · rfl

theorem weekDay_some (cy : Nat) (chunk : Str) :
    some (weekDay cy chunk) = parseRTSDaily cy (weekBlockText cy chunk) := by
  unfold weekDay
  cases h : parseRTSDaily cy (weekBlockText cy chunk) with
  | none =>
    have hs := parseRTSDaily_isSome cy (weekBlockText cy chunk)
    rw [h] at hs
    cases hs
  | some r => simp [h]

/-- C2, counterexample: a five-day text whose first header carries an
explicit trailing 4-digit year (`1 Aug 2024`), parsed with current year
2025: the weekly parser's first record is not deep-equal to what the
daily parser produces on the corresponding isolated block (the weekly
path re-parses the year-stripped label, resolving to 2025-08-01 instead
of 2024-08-01). -/
theorem c2_counterexample :
    (dayIdxs (splitNL (stripCR (strL
      "1 Aug 2024\nF1 Spare\n2 Aug 2024\nNil\n3 Aug 2024\nNil\n4 Aug 2024\nNil\n5 Aug 2024\nNil")))).length = 5 ∧
    (parseRTSWeek 2025 (strL
      "1 Aug 2024\nF1 Spare\n2 Aug 2024\nNil\n3 Aug 2024\nNil\n4 Aug 2024\nNil\n5 Aug 2024\nNil")).head? ≠
      parseRTSDaily 2025 ((splitWeekIntoDays (strL
        "1 Aug 2024\nF1 Spare\n2 Aug 2024\nNil\n3 Aug 2024\nNil\n4 Aug 2024\nNil\n5 Aug 2024\nNil")).headD []) := by
  constructor
  · decide
  · decide

/-- C2, amended: a multi-day text with exactly 5 date-header lines yields
exactly 5 day records, and each record is deep-equal to the Daily Schedule
Parser applied to the corresponding isolated block after its header line is
replaced by the parsed date label (which strips a trailing 4-digit year) and
an `RTS:` line is prefixed when the body contains no section keyword
(`weekBlockText`); equality with the raw isolated block fails exactly when
these rewrites matter (e.g. a header with a trailing 4-digit year differing
from the current year). -/
theorem c2_amended (cy : Nat) (text : Str)
    (h5 : (dayIdxs (splitNL (stripCR text))).length = 5) :
    (parseRTSWeek cy text).length = 5 ∧
    (parseRTSWeek cy text).map some =
      (splitWeekIntoDays text).map
        (fun chunk => parseRTSDaily cy (weekBlockText cy chunk)) := by
  constructor
  · unfold parseRTSWeek
    rw [List.length_map, splitWeek_length, h5]
  · unfold parseRTSWeek
    rw [List.map_map]
    exact List.map_congr_left (fun chunk _ => weekDay_some cy chunk)

/-- C2, witness: the amended statement evaluated on a concrete five-day
text. -/
theorem c2_witness :
    (parseRTSWeek 2025 (strL
      "1 Aug 2024\nF1 Spare\n2 Aug 25\nNil\n3 Aug\nNil\n4 Aug 25\nS1 Spare\n5 Aug 25\nNil")).length = 5 ∧
    (parseRTSWeek 2025 (strL
      "1 Aug 2024\nF1 Spare\n2 Aug 25\nNil\n3 Aug\nNil\n4 Aug 25\nS1 Spare\n5 Aug 25\nNil")).map some =
      (splitWeekIntoDays (strL
        "1 Aug 2024\nF1 Spare\n2 Aug 25\nNil\n3 Aug\nNil\n4 Aug 25\nS1 Spare\n5 Aug 25\nNil")).map
        (fun chunk => parseRTSDaily 2025 (weekBlockText 2025 chunk)) :=
  c2_amended 2025 _ (by decide)

theorem dropWhile_head_false (p : Char → Bool) (x : Str) (c : Char) (cs : Str)
    (h : x.dropWhile p = c :: cs) : p c = false := by
  induction x with
  | nil => cases h
  | cons a as ih =>
    rw [List.dropWhile_cons] at h
    split at h
    · exact ih h
    · next hpa =>
        cases h
        simpa using hpa

theorem jsTrim_head_not_ws (l : Str) (c : Char) (cs : Str)
    (h : jsTrim l = c :: cs) : isWS c = false := by
  unfold jsTrim at h
  have hsuf : List.IsSuffix ((dropWS l).reverse.dropWhile (fun c => isWS c))
      (dropWS l).reverse := List.dropWhile_suffix _
  have hpre : List.IsPrefix (c :: cs) (dropWS l) := by
    have := (List.reverse_prefix.mpr hsuf)
    rw [List.reverse_reverse, h] at this
    exact this
  obtain ⟨t, ht⟩ := hpre
  exact dropWhile_head_false (fun c => isWS c) l c (cs ++ t) ht.symm

theorem guardTest_eq_termStarts (keys : List Str) (hk : keys ≠ []) (l : Str)
    (hne : jsTrim l ≠ []) : guardTest keys (jsTrim l) = termStarts keys (jsTrim l) := by
  cases ht : jsTrim l with
  | nil => exact absurd ht hne
  | cons c cs =>
    have hws := jsTrim_head_not_ws l c cs ht
    cases keys with
    | nil => exact absurd rfl hk
    | cons k ks =>
      show (altAt (k :: ks) none (c :: cs) ||
        (if isWS c then guardGo (k :: ks) (some c) cs else false)) = _
      rw [hws, if_neg Bool.false_ne_true, Bool.or_false]
      rfl

theorem collectSec_spec (g : Str → Bool) (ls : List Str) :
    collectSec g ls =
      (((ls.take (ls.findIdx (fun l => jsTrim l ≠ [] && g (jsTrim l)))).map jsTrim),
        ls.findIdx (fun l => jsTrim l ≠ [] && g (jsTrim l))) := by
  induction ls with
  | nil => rfl
  | cons l ls ih =>
    by_cases h0 : jsTrim l = []
    · simp [collectSec, h0, ih, List.findIdx_cons, List.take_succ_cons]
    · by_cases hg : g (jsTrim l) = true
      · simp [collectSec, h0, hg, List.findIdx_cons]
      · simp [collectSec, h0, hg, ih, List.findIdx_cons, List.take_succ_cons]

theorem findIdx_congr_mem {α : Type} (p q : α → Bool) (ls : List α)
    (h : ∀ a ∈ ls, p a = q a) : ls.findIdx p = ls.findIdx q := by
  induction ls with
  | nil => rfl
  | cons a as ih =>
    rw [List.findIdx_cons, List.findIdx_cons, h a (List.mem_cons_self a as),
      ih (fun b hb => h b (List.mem_cons_of_mem a hb))]

/-- C7, counterexample: with an empty terminator keyword set the claim says
every line is collected (no line can match a keyword), but the compiled
guard degenerates to caret ws-star empty-alternation word-boundary, which
matches any line starting with a word character: scanning stops immediately
at index 0 and collects nothing. -/
theorem c7_counterexample :
    parseSection [strL "abc"] 0 [] ≠
      ({ items := [strL "abc"], nextIdx := 1 } : SectionResult) ∧
    parseSection [strL "abc"] 0 [] = { items := [], nextIdx := 0 } := by
  constructor
  · decide
  · decide

/-- C7, amended: for every NON-EMPTY terminator keyword set, the Section
Scanner collects the trimmed lines from the start index up to but excluding
the first non-blank line that starts (case-insensitively, after the trim)
with a terminator keyword followed by a word boundary, or until input ends;
blank lines are kept as empty placeholders but trailing blanks are removed;
and the returned next index is the index of that terminator line itself (or
the list length), never advanced past it. -/
theorem c7_amended (lines : List Str) (start : Nat) (keys : List Str)
    (hk : keys ≠ []) :
    (parseSection lines start keys).nextIdx =
      start + sectionStop keys (lines.drop start) ∧
    (parseSection lines start keys).items =
      dropTrailingEmpties
        (((lines.drop start).take (sectionStop keys (lines.drop start))).map jsTrim) := by
  have hcong : (lines.drop start).findIdx
      (fun l => jsTrim l ≠ [] && guardTest keys (jsTrim l)) =
      sectionStop keys (lines.drop start) := by
    unfold sectionStop
    apply findIdx_congr_mem
    intro l _
    by_cases h0 : jsTrim l = []
    · simp [h0]
    · rw [guardTest_eq_termStarts keys hk l h0]
  unfold parseSection
  rw [collectSec_spec, hcong]
  exact ⟨rfl, rfl⟩

/-- C7, witness: the amended statement at a concrete line list, start index
and keyword set. -/
theorem c7_witness :
    (parseSection [strL "a", strL "", strL "Hot x", strL "b"] 0 [strL "Hot"]).nextIdx =
      0 + sectionStop [strL "Hot"]
        ([strL "a", strL "", strL "Hot x", strL "b"].drop 0) ∧
    (parseSection [strL "a", strL "", strL "Hot x", strL "b"] 0 [strL "Hot"]).items =
      dropTrailingEmpties
        ((([strL "a", strL "", strL "Hot x", strL "b"].drop 0).take
          (sectionStop [strL "Hot"]
            ([strL "a", strL "", strL "Hot x", strL "b"].drop 0))).map jsTrim) :=
  c7_amended [strL "a", strL "", strL "Hot x", strL "b"] 0 [strL "Hot"] (by decide)

/- =====================================================================
   Claim C5
   ===================================================================== -/

/-- C5, counterexample: in `"F3 spare window"` every occurrence of the word
`spare` is immediately part of `spare window` (the boundary-checked spare
test with the window lookahead is false), yet the Mission/Spare Line Parser
emits a spare entry: the independent `rest`-starts-with-`spare` check has no
window exclusion. -/
theorem c5_counterexample :
    isSpareText (strL "F3 spare window") = false ∧
    parseMissionLine (strL "F3 spare window") =
      some { type := .spare, code := some (strL "F3"),
             label := strL "F3 Spare window" } := by
  constructor
  · decide
  · decide

/-- C5, amended: on a single line in which every occurrence of the word
`spare` is part of `spare window`, AND whose text after the leading unit
code does not itself begin with the word `spare`, AND which does not begin
with `nil` followed by optional whitespace and `spare`, the parser never
returns a spare entry: whatever entry it returns is a mission entry. -/
theorem c5_amended (s : Str)
    (h1 : isSpareText (jsTrim s) = false)
    (h2 : (mStd (jsTrim s)).elim false (fun m => spareWordStart m.rest) = false)
    (h3 : (ciStarts (strL "nil") (jsTrim s) &&
           ciStarts (strL "spare") (dropWS ((jsTrim s).drop 3))) = false)
    (e : ScheduleEntry) (he : parseMissionLine s = some e) : e.type = .mission := by
  simp only [parseMissionLine] at he
  split at he
  · cases he
  · rcases hm : mStd (jsTrim s) with _ | m
    · simp only [hm] at he
      rw [h3] at he
      simp only [Bool.false_eq_true, if_false] at he
      split at he
      · cases he
        rfl
      · cases he
    · have h2' : spareWordStart m.rest = false := by simpa [hm] using h2
      simp only [hm] at he
      rw [h1, h2'] at he
      simp only [Bool.or_self, Bool.false_eq_true, if_false] at he
      cases he
      rfl

/-- C5, witness: the amended statement applied to `"F3 1130 - 2200 GH/IF"`
(no `spare` at all), whose parse is a mission entry. -/
theorem c5_witness :
    ({ type := .mission, code := some (strL "F3"),
       label := strL "1130-2200 GH/IF" } : ScheduleEntry).type = .mission :=
  c5_amended (strL "F3 1130 - 2200 GH/IF") (by decide) (by decide) (by decide)
    { type := .mission, code := some (strL "F3"), label := strL "1130-2200 GH/IF" }
    (by decide)

/-- C6, counterexample: a parsed entry whose `Input:` line carries the AOG
token is tagged `aog` by `parseReport`, while the claim's computation on
title+notes alone yields `serviceable` — the real combined text includes
the input and etr fields. -/
theorem c6_counterexample :
    getA (strL "F2") (parseReport (strL "F2 - S\nInput: aog")) =
      some { code := strL "F2", title := strL "F2 - S", input := strL "aog",
             etr := [], notes := [], tag := strL "aog" } ∧
    claimStatusTag { code := strL "F2", title := strL "F2 - S", input := strL "aog",
                     etr := [], notes := [], tag := strL "aog" } =
      strL "serviceable" := by
  constructor
  · decide
  · decide

/-- C6, amended: for every status entry, the derived tag equals the rule
list of the claim applied to the combined lowercased title+input+etr+notes
text: AOG first, then U/S / defect / rect / GR markers, then a title
containing `major serv` or `phase`, then `post phase rcv` / `recovery`,
else serviceable. -/
theorem c6_amended (e : StatusEntry) : deriveStatusTag e = specStatusTag e := by
  unfold deriveStatusTag specStatusTag
  simp only [Bool.or_assoc, ite_self]

theorem lastOr_cons (prev : Option Char) (c : Char) (a : Str) :
    lastOr prev (c :: a) = lastOr (some c) a := by
  cases a with
  | nil => rfl
  | cons x xs =>
    unfold lastOr
    rw [List.getLast?_cons_cons]
    cases hx : (x :: xs).getLast? with
    | none => simp at hx
    | some d => rfl

theorem scanPos_iff (p : Option Char → Str → Bool) (prev : Option Char) (s : Str) :
    scanPos p prev s = true ↔ ∃ a t, s = a ++ t ∧ p (lastOr prev a) t = true := by
  induction s generalizing prev with
  | nil =>
    constructor
    · intro h
      exact ⟨[], [], rfl, h⟩
    · rintro ⟨a, t, heq, hp⟩
      rcases List.append_eq_nil.mp heq.symm with ⟨rfl, rfl⟩
      exact hp
  | cons c cs ih =>
    constructor
    · intro h
      rcases (by simpa [scanPos] using h :
          p prev (c :: cs) = true ∨ scanPos p (some c) cs = true) with h1 | h2
      · exact ⟨[], c :: cs, rfl, h1⟩
      · rcases (ih (some c)).mp h2 with ⟨a, t, heq, hp⟩
        refine ⟨c :: a, t, by simp [heq], ?_⟩
        rw [lastOr_cons]
        exact hp
    · rintro ⟨a, t, heq, hp⟩
      show (p prev (c :: cs) || scanPos p (some c) cs) = true
      cases a with
      | nil =>
        cases heq
        have hp2 : p prev (c :: cs) = true := hp
        simp [hp2]
      | cons x a2 =>
        rw [List.cons_append] at heq
        cases heq
        rw [lastOr_cons] at hp
        have h2 : scanPos p (some c) (a2 ++ t) = true :=
          (ih (some c)).mpr ⟨a2, t, rfl, hp⟩
        simp [h2]

theorem ciStarts_iff (pat t : Str) :
    ciStarts pat t = true ↔ ∃ p r, t = p ++ r ∧ toLowerS p = toLowerS pat := by
  induction pat generalizing t with
  | nil =>
    simp only [ciStarts]
    constructor
    · intro _
      exact ⟨[], t, rfl, rfl⟩
    · intro _
      trivial
  | cons q qs ih =>
    cases t with
    | nil =>
      simp only [ciStarts]
      constructor
      · intro h
        cases h
      · rintro ⟨p, r, heq, hlow⟩
        rcases List.append_eq_nil.mp heq.symm with ⟨rfl, _⟩
        cases hlow
    | cons c cs =>
      simp only [ciStarts, Bool.and_eq_true]
      constructor
      · rintro ⟨hc, hrest⟩
        rcases (ih cs).mp hrest with ⟨p, r, heq, hlow⟩
        refine ⟨c :: p, r, by simp [heq], ?_⟩
        simp only [toLowerS, List.map_cons] at hlow ⊢
        rw [hlow]
        have hcq : c.toLower = q.toLower := by simpa [ciChar] using hc
        rw [hcq]
      · rintro ⟨p, r, heq, hlow⟩
        cases p with
        | nil => cases hlow
        | cons d p2 =>
          rw [List.cons_append] at heq
          cases heq
          simp only [toLowerS, List.map_cons, List.cons.injEq] at hlow
          exact ⟨by simpa [ciChar] using hlow.1, (ih (p2 ++ r)).mpr ⟨p2, r, rfl, hlow.2⟩⟩

theorem dropWS_ws_append (w u : Str) (hw : AllWS w) :
    dropWS (w ++ u) = dropWS u := by
  induction w with
  | nil => rfl
  | cons c cs ih =>
    have hc := hw c (List.mem_cons_self c cs)
    simp only [List.cons_append, dropWS, List.dropWhile_cons, hc, if_pos]
    exact ih (fun x hx => hw x (List.mem_cons_of_mem c hx))

theorem dropWS_not_ws (c : Char) (u : Str) (hc : isWS c = false) :
    dropWS (c :: u) = c :: u := by
  simp [dropWS, List.dropWhile_cons, hc]

theorem takeWhile_allWS (t : Str) : AllWS (t.takeWhile isWS) :=
  fun _ hc => List.mem_takeWhile_imp hc

theorem ws_toLower_self (c : Char) (h : isWS c = true) : c.toLower = c := by
  unfold isWS at h
  simp only [Bool.or_eq_true, decide_eq_true_eq] at h
  rcases h with ((((((h | h) | h) | h) | h) | h) | h) | h <;> subst h <;> decide

theorem not_ws_of_toLower (c x : Char) (hx : isWS x = false)
    (h : c.toLower = x) : isWS c = false := by
  by_contra hc
  have hc2 : isWS c = true := by simpa using hc
  rw [ws_toLower_self c hc2] at h
  subst h
  rw [hc2] at hx
  cases hx

theorem toLowerS_length (p q : Str) (h : toLowerS p = q) : p.length = q.length := by
  rw [← h]
  simp [toLowerS]

theorem ciStarts_of_toLower (pat p r : Str) (h : toLowerS p = toLowerS pat) :
    ciStarts pat (p ++ r) = true :=
  (ciStarts_iff pat (p ++ r)).mpr ⟨p, r, rfl, h⟩

theorem dropWS_append_of_toLower (p u : Str) (x : Char) (xs : Str)
    (h : toLowerS p = x :: xs) (hx : isWS x = false) :
    dropWS (p ++ u) = p ++ u := by
  cases p with
  | nil => cases h
  | cons c cs =>
    simp only [toLowerS, List.map_cons, List.cons.injEq] at h
    have hc := not_ws_of_toLower c x hx h.1
    simp [dropWS, List.dropWhile_cons, hc]

theorem lastOr_none (a : Str) : lastOr none a = a.getLast? := by
  unfold lastOr
  cases a.getLast? <;> rfl

theorem hasPPR_iff (s : Str) : hasPPR s = true ↔ PPRProp s := by
  rw [hasPPR, scanPos_iff]
  constructor
  · rintro ⟨a, t, rfl, hp⟩
    rw [pprAt] at hp
    simp only [Bool.and_eq_true] at hp
    obtain ⟨hpost, hphase, hrcv⟩ := hp
    rcases (ciStarts_iff _ _).mp hpost with ⟨p1, r1, ht, hl1⟩
    have hlen1 : p1.length = 4 := toLowerS_length _ _ hl1
    have hdrop1 : t.drop 4 = r1 := by
      rw [ht, ← hlen1, List.drop_left]
    rw [hdrop1] at hphase hrcv
    have hsplit1 : r1 = r1.takeWhile isWS ++ dropWS r1 :=
      (List.takeWhile_append_dropWhile _ _).symm
    rcases (ciStarts_iff _ _).mp hphase with ⟨p2, r2, hu1e, hl2⟩
    have hlen2 : p2.length = 5 := toLowerS_length _ _ hl2
    have hdrop2 : (dropWS r1).drop 5 = r2 := by
      rw [hu1e, ← hlen2, List.drop_left]
    rw [hdrop2] at hrcv
    have hsplit2 : r2 = r2.takeWhile isWS ++ dropWS r2 :=
      (List.takeWhile_append_dropWhile _ _).symm
    rcases (ciStarts_iff _ _).mp hrcv with ⟨p3, r3, hu2e, hl3⟩
    have s2 : r2 = r2.takeWhile isWS ++ (p3 ++ r3) := by
      conv_lhs => rw [hsplit2]
      exact congrArg (fun z => r2.takeWhile isWS ++ z) hu2e
    have s1 : r1 = r1.takeWhile isWS ++ (p2 ++ (r2.takeWhile isWS ++ (p3 ++ r3))) := by
      conv_lhs => rw [hsplit1]
      refine congrArg (fun z => r1.takeWhile isWS ++ z) ?_
      rw [hu1e]
      exact congrArg (fun z => p2 ++ z) s2
    have ht2 : t = p1 ++ (r1.takeWhile isWS ++
        (p2 ++ (r2.takeWhile isWS ++ (p3 ++ r3)))) := by
      rw [ht]
      exact congrArg (fun z => p1 ++ z) s1
    refine ⟨a, p1, r1.takeWhile isWS, p2, r2.takeWhile isWS, p3, r3, ?_,
      ?_, takeWhile_allWS r1, ?_, takeWhile_allWS r2, ?_⟩
    · rw [ht2]
      simp [List.append_assoc]
    · rw [hl1]
      decide
    · rw [hl2]
      decide
    · rw [hl3]
      decide
  · rintro ⟨a, p1, w1, p2, w2, p3, b, rfl, h1, hw1, h2, hw2, h3⟩
    refine ⟨a, p1 ++ (w1 ++ (p2 ++ (w2 ++ (p3 ++ b)))),
      by simp [List.append_assoc], ?_⟩
    rw [pprAt]
    simp only [Bool.and_eq_true]
    have hlen1 : p1.length = 4 := toLowerS_length _ _ h1
    have hlen2 : p2.length = 5 := toLowerS_length _ _ h2
    have e1 : dropWS ((p1 ++ (w1 ++ (p2 ++ (w2 ++ (p3 ++ b))))).drop 4) =
        p2 ++ (w2 ++ (p3 ++ b)) := by
      rw [show (4 : Nat) = p1.length from hlen1.symm, List.drop_left,
        dropWS_ws_append _ _ hw1,
        dropWS_append_of_toLower p2 _ 'p' (strL "hase") h2 (by decide)]
    have e2 : dropWS ((p2 ++ (w2 ++ (p3 ++ b))).drop 5) = p3 ++ b := by
      rw [show (5 : Nat) = p2.length from hlen2.symm, List.drop_left,
        dropWS_ws_append _ _ hw2,
        dropWS_append_of_toLower p3 _ 'r' (strL "cv") h3 (by decide)]
    rw [e1, e2]
    exact ⟨ciStarts_of_toLower _ _ _ (by rw [h1]; decide),
      ciStarts_of_toLower _ _ _ (by rw [h2]; decide),
      ciStarts_of_toLower _ _ _ (by rw [h3]; decide)⟩

theorem recoveryLineEnd_iff (s : Str) :
    recoveryLineEnd s = true ↔ RecEndProp s := by
  rw [recoveryLineEnd, scanPos_iff]
  constructor
  · rintro ⟨a, t, rfl, hp⟩
    rw [recEndAt.eq_def] at hp
    simp only [Bool.and_eq_true] at hp
    obtain ⟨hanchor, hrec, hws⟩ := hp
    rcases (ciStarts_iff _ _).mp hrec with ⟨p, rest, hre, hl⟩
    have hlen : p.length = 8 := toLowerS_length _ _ hl
    have hdrop : (dropWS t).drop 8 = rest := by
      rw [hre, ← hlen, List.drop_left]
    rw [hdrop] at hws
    have hsplit : t = t.takeWhile isWS ++ dropWS t :=
      (List.takeWhile_append_dropWhile _ _).symm
    have ht2 : t = t.takeWhile isWS ++ (p ++ rest) := by
      conv_lhs => rw [hsplit]
      exact congrArg (fun z => t.takeWhile isWS ++ z) hre
    refine ⟨a, t.takeWhile isWS, p, rest, ?_, ?_, takeWhile_allWS t, ?_, ?_⟩
    · refine (congrArg (fun z => a ++ z) ht2).trans ?_
      simp [List.append_assoc]
    · rw [lastOr_none] at hanchor
      cases hg : a.getLast? with
      | none => exact Or.inl (List.getLast?_eq_none_iff.mp hg)
      | some d =>
        rw [hg] at hanchor
        simp only [decide_eq_true_eq] at hanchor
        exact Or.inr (by rw [hanchor])
    · rw [hl]
      decide
    · exact fun c hc => (List.all_eq_true.mp hws) c hc
  · rintro ⟨a, w1, r, w2, rfl, hanchor, hw1, hr, hw2⟩
    refine ⟨a, w1 ++ (r ++ w2), by simp [List.append_assoc], ?_⟩
    rw [recEndAt.eq_def]
    simp only [Bool.and_eq_true]
    refine ⟨?_, ?_, ?_⟩
    · rw [lastOr_none]
      rcases hanchor with h | h
      · subst h
        rfl
      · rw [h]
        simp
    · rw [dropWS_ws_append _ _ hw1,
        dropWS_append_of_toLower r _ 'r' (strL "ecovery") hr (by decide)]
      exact ciStarts_of_toLower _ _ _ (by rw [hr]; decide)
    · rw [dropWS_ws_append _ _ hw1,
        dropWS_append_of_toLower r _ 'r' (strL "ecovery") hr (by decide)]
      have hlen : r.length = 8 := toLowerS_length _ _ hr
      have hdrop : (r ++ w2).drop 8 = w2 := by
        rw [← hlen, List.drop_left]
      rw [hdrop]
      exact List.all_eq_true.mpr (fun c hc => hw2 c hc)

theorem getA_mapVals {α β : Type} (f : α → β) (k : Str) (m : List (Str × α)) :
    getA k (mapValsA f m) = (getA k m).map f := by
  induction m with
  | nil => rfl
  | cons p rest ih =>
    obtain ⟨k2, v2⟩ := p
    simp only [mapValsA, List.map_cons, getA]
    split
    · rfl
    · exact ih

/-- C8, counterexample: a record whose joined text contains a standalone
`Recovery` line in the middle (followed by further content) has
`isRecovery = false` — the pattern's unflagged `$` anchors at the end of
the whole text, not at the end of that line. -/
theorem c8_counterexample :
    ((getA (strL "F2") (parseTelegramDefects
        (strL "F2\n\nRecovery\n\nWorkcenter: 500"))).map
      (fun r => r.recovery)) = some false ∧
    ((getA (strL "F2") (parseTelegramDefects
        (strL "F2\n\nRecovery\n\nWorkcenter: 500"))).map
      (fun r => hasRecoveryLine (joinNN r.lines))) = some true := by
  constructor
  · decide
  · decide

/-- C8, amended: for every defect record, `isRecovery` is true exactly when
the record's joined raw text contains a `post phase rcv` phrase anywhere,
or a standalone `Recovery` line that is followed only by whitespace up to
the end of the text (i.e. as the final contentful line) — a mid-text
standalone `Recovery` line does not set the flag. -/
theorem c8_amended (text code : Str) (rec : DefectRec)
    (h : getA code (parseTelegramDefects text) = some rec) :
    rec.recovery = true ↔
      (RecEndProp (joinNN rec.lines) ∨ PPRProp (joinNN rec.lines)) := by
  rw [parseTelegramDefects, getA_mapVals] at h
  rcases Option.map_eq_some'.mp h with ⟨r0, _, hrec⟩
  subst hrec
  show (recoveryLineEnd (joinNN r0.lines) || hasPPR (joinNN r0.lines)) = true ↔ _
  rw [Bool.or_eq_true, recoveryLineEnd_iff, hasPPR_iff]
  exact Iff.rfl

/-- C8, witness: the amended statement at a concrete record containing a
`post phase rcv` phrase. -/
theorem c8_witness :
    c8Rec.recovery = true ↔
      (RecEndProp (joinNN c8Rec.lines) ∨ PPRProp (joinNN c8Rec.lines)) :=
  c8_amended (strL "F2\n\npost phase rcv") (strL "F2") c8Rec (by decide)

/- =====================================================================
   Claim C10
   ===================================================================== -/

theorem getA_setA_absent {α : Type} (key : Str) (v : α) (m : List (Str × α))
    (k : Str) (habs : getA key m = none) :
    getA k (setA key v m) = if key = k then some v else getA k m := by
  induction m with
  | nil => rfl
  | cons p rest ih =>
    obtain ⟨k2, v2⟩ := p
    simp only [getA] at habs
    by_cases h2 : k2 = key
    · rw [if_pos h2] at habs
      cases habs
    · rw [if_neg h2] at habs
      by_cases h3 : k2 = k
      · subst h3
        have hkey : ¬ key = k2 := fun he => h2 (by rw [he])
        simp [setA, getA, h2, hkey]
      · by_cases hkey : key = k
        · subst hkey
          simp [setA, getA, h2, h3, ih habs]
        · simp [setA, getA, h2, h3, hkey, ih habs]

theorem getA_modifyA {α : Type} (key : Str) (f : α → α) (m : List (Str × α))
    (k : Str) :
    getA k (modifyA key f m) =
      if key = k then (getA k m).map f else getA k m := by
  induction m with
  | nil => simp [modifyA, getA]
  | cons p rest ih =>
    obtain ⟨k2, v2⟩ := p
    by_cases h2 : k2 = key
    · subst h2
      by_cases h3 : k2 = k
      · subst h3
        simp [modifyA, getA]
      · have hkey : ¬ k2 = k := h3
        simp [modifyA, getA, h3, fun he => h3 (he : k2 = k), ih,
          show ¬ k2 = k from h3]
    · by_cases h3 : k2 = k
      · subst h3
        have hkey : ¬ key = k2 := fun he => h2 (by rw [he])
        simp [modifyA, getA, h2, hkey]
      · simp [modifyA, getA, h2, h3, ih]

/-- C10, confirmed: inside a completed or outstanding section, every
trimmed non-empty line whose first characters are a unit code starts a new
group for that code, whatever text follows the code: the current code
switches to it, a fresh empty group is created only when the code had none,
and no group's item list changes — in particular the line is never appended
as an item to the previously current group, and its trailing text is
discarded. -/
theorem c10_confirmed (st : HotoState) (raw : Str) (c1 c2 : Char) (rest : Str)
    (hsec : st.sect = some HSection.completed ∨ st.sect = some HSection.outstanding)
    (hline : jsTrim raw = c1 :: c2 :: rest)
    (hc1 : c1 = 'F' ∨ c1 = 'S') (hc2 : isDigitChar c2 = true) :
    (hotoStep st raw).cur = some [c1, c2] ∧
    (∀ k, hotoItemsC (hotoStep st raw) k = hotoItemsC st k ∨
      (k = [c1, c2] ∧ hotoItemsC st k = none ∧
        hotoItemsC (hotoStep st raw) k = some [])) ∧
    (∀ k, hotoItemsO (hotoStep st raw) k = hotoItemsO st k ∨
      (k = [c1, c2] ∧ hotoItemsO st k = none ∧
        hotoItemsO (hotoStep st raw) k = some [])) := by
  have hmaj : isMajorHeader (c1 :: c2 :: rest) = false := by
    rcases hc1 with rfl | rfl <;> simp [isMajorHeader]
  have hcs : codeStart (c1 :: c2 :: rest) = some ([c1, c2], rest) := by
    rcases hc1 with rfl | rfl <;> simp [codeStart, upFS, hc2]
  have hmatch : ∃ tg, hotoCodeMatch (c1 :: c2 :: rest) = some ([c1, c2], tg) := by
    rw [hotoCodeMatch.eq_def, hcs]
    exact ⟨_, rfl⟩
  obtain ⟨tg, htg⟩ := hmatch
  rcases hsec with hs | hs
  · have hstep : hotoStep st raw = hotoContent st true (c1 :: c2 :: rest) := by
      rw [hotoStep.eq_def, hline, hs]
      simp [hmaj]
    have hcont : hotoContent st true (c1 :: c2 :: rest) =
        { st with cur := some [c1, c2],
                  completed := ensureA [c1, c2] [] st.completed } := by
      rw [hotoContent.eq_def, htg]
      rfl
    rw [hstep, hcont]
    refine ⟨rfl, ?_, fun k => Or.inl rfl⟩
    intro k
    by_cases hk : ([c1, c2] : Str) = k
    · subst hk
      cases hab : getA [c1, c2] st.completed with
      | some old =>
        refine Or.inl ?_
        show getA [c1, c2] (ensureA [c1, c2] [] st.completed) =
          getA [c1, c2] st.completed
        rw [ensureA.eq_def]
        simp [hab]
      | none =>
        refine Or.inr ⟨rfl, hab, ?_⟩
        show getA [c1, c2] (ensureA [c1, c2] [] st.completed) = some []
        rw [ensureA.eq_def]
        simp only [hab, Option.isSome_none, Bool.false_eq_true, if_false]
        rw [getA_setA_absent _ _ _ _ hab, if_pos rfl]
    · refine Or.inl ?_
      show getA k (ensureA [c1, c2] [] st.completed) = getA k st.completed
      rw [ensureA.eq_def]
      cases hab : getA [c1, c2] st.completed with
      | some old =>
        simp [hab]
      | none =>
        simp only [hab, Option.isSome_none, Bool.false_eq_true, if_false]
        rw [getA_setA_absent _ _ _ _ hab, if_neg hk]
  · have hstep : hotoStep st raw = hotoContent st false (c1 :: c2 :: rest) := by
      rw [hotoStep.eq_def, hline, hs]
      simp [hmaj]
    have hcont : hotoContent st false (c1 :: c2 :: rest) =
        { st with cur := some [c1, c2],
                  outstanding := modifyA [c1, c2]
                    (fun g => { g with tag := newTag tg g.tag })
                    (ensureA [c1, c2] { tag := [], items := [] }
                      st.outstanding) } := by
      rw [hotoContent.eq_def, htg]
      rfl
    rw [hstep, hcont]
    refine ⟨rfl, fun k => Or.inl rfl, ?_⟩
    intro k
    by_cases hk : ([c1, c2] : Str) = k
    · subst hk
      cases hab : getA [c1, c2] st.outstanding with
      | some old =>
        refine Or.inl ?_
        show (getA [c1, c2] (modifyA [c1, c2] _
            (ensureA [c1, c2] { tag := [], items := [] } st.outstanding))).map
            HotoGroup.items = (getA [c1, c2] st.outstanding).map HotoGroup.items
        rw [getA_modifyA, if_pos rfl, ensureA.eq_def]
        simp [hab]
      | none =>
        refine Or.inr ⟨rfl, ?_, ?_⟩
        · show (getA [c1, c2] st.outstanding).map HotoGroup.items = none
          rw [hab]
          rfl
        · show (getA [c1, c2] (modifyA [c1, c2] _
              (ensureA [c1, c2] { tag := [], items := [] } st.outstanding))).map
              HotoGroup.items = some []
          rw [getA_modifyA, if_pos rfl, ensureA.eq_def]
          simp only [hab, Option.isSome_none, Bool.false_eq_true, if_false]
          rw [getA_setA_absent _ _ _ _ hab, if_pos rfl]
          rfl
    · refine Or.inl ?_
      show (getA k (modifyA [c1, c2] _
          (ensureA [c1, c2] { tag := [], items := [] } st.outstanding))).map
          HotoGroup.items = (getA k st.outstanding).map HotoGroup.items
      rw [getA_modifyA, if_neg hk, ensureA.eq_def]
      cases hab : getA [c1, c2] st.outstanding with
      | some old =>
        simp [hab]
      | none =>
        simp only [hab, Option.isSome_none, Bool.false_eq_true, if_false]
        rw [getA_setA_absent _ _ _ _ hab, if_neg hk]

/-- Witness for C10 at a concrete state and line: the line "F2 junk" inside
the completed section switches the current code to F2 and leaves the F1
item list untouched. -/
theorem c10_witness :
    (hotoStep c10St (strL "F2 junk")).cur = some (strL "F2") ∧
    (hotoItemsC (hotoStep c10St (strL "F2 junk")) (strL "F1") =
        hotoItemsC c10St (strL "F1") ∨
      (strL "F1" = strL "F2" ∧ hotoItemsC c10St (strL "F1") = none ∧
        hotoItemsC (hotoStep c10St (strL "F2 junk")) (strL "F1") = some [])) := by
  have h := c10_confirmed c10St (strL "F2 junk") 'F' '2' (strL " junk")
    (Or.inl rfl) (by decide) (Or.inl rfl) (by decide)
  exact ⟨h.1, h.2.1 (strL "F1")⟩

theorem codeStart_isUnit (t code r : Str) (h : codeStart t = some (code, r)) :
    isUnitCode code = true := by
  match t with
  | [] => simp [codeStart] at h
  | [c] => simp [codeStart] at h
  | c1 :: c2 :: rest =>
    rw [codeStart] at h
    split at h
    · rename_i hc
      simp only [Option.some.injEq, Prod.mk.injEq] at h
      obtain ⟨hcode, -⟩ := h
      subst hcode
      simp only [Bool.or_eq_true, Bool.and_eq_true, decide_eq_true_eq] at hc
      obtain ⟨((h1 | h1) | h1) | h1, h2⟩ := hc <;> subst h1 <;>
        simp [isUnitCode, upFS, h2]
    · exact absurd h (by simp)

theorem mem_keysA_setA {α : Type} (key : Str) (v : α) (m : List (Str × α))
    (k : Str) (hk : k ∈ keysA (setA key v m)) : k = key ∨ k ∈ keysA m := by
  induction m with
  | nil =>
    simp only [setA, keysA, List.map_cons, List.map_nil, List.mem_singleton] at hk
    exact Or.inl hk
  | cons p rest ih =>
    obtain ⟨k2, v2⟩ := p
    by_cases he : k2 = key
    · simp only [setA, if_pos he, keysA, List.map_cons, List.mem_cons] at hk ⊢
      rcases hk with hk | hk
      · exact Or.inr (Or.inl hk)
      · exact Or.inr (Or.inr hk)
    · simp only [setA, if_neg he, keysA, List.map_cons, List.mem_cons] at hk ⊢
      rcases hk with hk | hk
      · exact Or.inr (Or.inl hk)
      · rcases ih hk with hk2 | hk2
        · exact Or.inl hk2
        · exact Or.inr (Or.inr hk2)

theorem keysA_modifyA2 {α : Type} (key : Str) (f : α → α)
    (m : List (Str × α)) : keysA (modifyA key f m) = keysA m := by
  induction m with
  | nil => rfl
  | cons p rest ih =>
    obtain ⟨k2, v2⟩ := p
    by_cases he : k2 = key
    · simp [modifyA, he, keysA]
    · simp only [modifyA, if_neg he, keysA, List.map_cons] at ih ⊢
      rw [ih]

theorem keysA_mapVals2 {α β : Type} (f : α → β) (m : List (Str × α)) :
    keysA (mapValsA f m) = keysA m := by
  induction m with
  | nil => rfl
  | cons p rest ih =>
    simp only [mapValsA, keysA, List.map_cons] at ih ⊢
    rw [ih]

theorem mem_keysA_ensureA {α : Type} (key : Str) (v0 : α)
    (m : List (Str × α)) (k : Str) (hk : k ∈ keysA (ensureA key v0 m)) :
    k = key ∨ k ∈ keysA m := by
  unfold ensureA at hk
  split at hk
  · exact Or.inr hk
  · exact mem_keysA_setA key v0 m k hk

theorem foldl_inv {α β : Type} (P : α → Prop) (f : α → β → α)
    (hf : ∀ a b, P a → P (f a b)) (l : List β) :
    ∀ a : α, P a → P (l.foldl f a) := by
  induction l with
  | nil => intro a ha; exact ha
  | cons b t ih => intro a ha; exact ih (f a b) (hf a b ha)

theorem reportHeader_isUnit (line code tail : Str)
    (h : reportHeader line = some (code, tail)) : isUnitCode code = true := by
  unfold reportHeader at h
  simp only [] at h
  split at h
  · exact absurd h (by simp)
  · rename_i c r0 hcs
    split at h
    · split at h
      · exact absurd h (by simp)
      · simp only [Option.some.injEq, Prod.mk.injEq] at h
        rw [← h.1]
        exact codeStart_isUnit _ _ _ hcs
    · exact absurd h (by simp)

theorem reportStep_keys (st : ReportState) (line : Str)
    (hst : ∀ k ∈ keysA st.entries, isUnitCode k = true) :
    ∀ k ∈ keysA (reportStep st line).entries, isUnitCode k = true := by
  intro k hk
  unfold reportStep at hk
  split at hk
  · exact hst k hk
  · split at hk
    · rename_i code tail hhdr
      rcases mem_keysA_setA code _ st.entries k hk with rfl | hk2
      · exact reportHeader_isUnit line k tail hhdr
      · exact hst k hk2
    · split at hk
      · exact hst k hk
      · rename_i cur
        split at hk
        · rw [keysA_modifyA2] at hk
          exact hst k hk
        · split at hk
          · rw [keysA_modifyA2] at hk
            exact hst k hk
          · split at hk
            · simp only [pushNote] at hk
              rw [keysA_modifyA2] at hk
              exact hst k hk
            · split at hk
              · simp only [pushNote] at hk
                rw [keysA_modifyA2] at hk
                exact hst k hk
              · split at hk
                · simp only [pushNote] at hk
                  rw [keysA_modifyA2] at hk
                  exact hst k hk
                · exact hst k hk

theorem statusEntriesOf_keys (text : Str) :
    ∀ k ∈ keysA (statusEntriesOf text), isUnitCode k = true := by
  unfold statusEntriesOf
  exact foldl_inv
    (fun st : ReportState => ∀ k ∈ keysA st.entries, isUnitCode k = true)
    reportStep (fun a b ha => reportStep_keys a b ha)
    ((splitNL (stripCR text)).map jsTrim) ⟨[], none⟩
    (by intro k hk; simp [keysA] at hk)

theorem parseReport_keys (text : Str) :
    ∀ k ∈ keysA (parseReport text), isUnitCode k = true := by
  intro k hk
  unfold parseReport at hk
  rw [keysA_mapVals2] at hk
  exact statusEntriesOf_keys text k hk

theorem parseNightReport_keys (text : Str) :
    ∀ k ∈ keysA (parseNightReport text), isUnitCode k = true := by
  intro k hk
  unfold parseNightReport at hk
  rw [keysA_mapVals2] at hk
  exact statusEntriesOf_keys text k hk

theorem hotoCodeMatch_isUnit (line code : Str) (tagOpt : Option Str)
    (h : hotoCodeMatch line = some (code, tagOpt)) : isUnitCode code = true := by
  unfold hotoCodeMatch at h
  split at h
  · exact absurd h (by simp)
  · rename_i c r0 hcs
    simp only [Option.some.injEq, Prod.mk.injEq] at h
    rw [← h.1]
    exact codeStart_isUnit _ _ _ hcs

theorem applyStart_maps (st : HotoState) (line : Str) :
    (applyStart st line).completed = st.completed ∧
    (applyStart st line).outstanding = st.outstanding := by
  unfold applyStart
  split <;> exact ⟨rfl, rfl⟩

theorem hotoContent_keys (st : HotoState) (b : Bool) (line : Str)
    (hst : HKeysOK st) : HKeysOK (hotoContent st b line) := by
  unfold hotoContent
  split
  · rename_i code tagOpt hcm
    have hcode : isUnitCode code = true := hotoCodeMatch_isUnit line code tagOpt hcm
    split
    · refine ⟨?_, hst.2⟩
      intro k hk
      rcases mem_keysA_ensureA code _ st.completed k hk with rfl | hk2
      · exact hcode
      · exact hst.1 k hk2
    · refine ⟨hst.1, ?_⟩
      intro k hk
      simp only [] at hk
      rw [keysA_modifyA2] at hk
      rcases mem_keysA_ensureA code _ st.outstanding k hk with rfl | hk2
      · exact hcode
      · exact hst.2 k hk2
  · split
    · rename_i cur
      split
      · split
        · refine ⟨?_, hst.2⟩
          intro k hk
          simp only [pushCompleted] at hk
          rw [keysA_modifyA2] at hk
          exact hst.1 k hk
        · refine ⟨hst.1, ?_⟩
          intro k hk
          simp only [pushOutstanding] at hk
          rw [keysA_modifyA2] at hk
          exact hst.2 k hk
      · split
        · refine ⟨?_, hst.2⟩
          intro k hk
          simp only [pushCompleted] at hk
          rw [keysA_modifyA2] at hk
          exact hst.1 k hk
        · refine ⟨hst.1, ?_⟩
          intro k hk
          simp only [pushOutstanding] at hk
          rw [keysA_modifyA2] at hk
          exact hst.2 k hk
    · exact hst

theorem hotoStep_keys (st : HotoState) (raw : Str) (hst : HKeysOK st) :
    HKeysOK (hotoStep st raw) := by
  unfold hotoStep
  simp only []
  split
  · exact hst
  · split
    · refine ⟨?_, ?_⟩
      · rw [(applyStart_maps st (jsTrim raw)).1]
        exact hst.1
      · rw [(applyStart_maps st (jsTrim raw)).2]
        exact hst.2
    · split
      · exact hotoContent_keys st true (jsTrim raw) hst
      · exact hotoContent_keys st false (jsTrim raw) hst
      · exact ⟨hst.1, hst.2⟩
      · exact hst

theorem parseHOTO_keys (text : Str) :
    (∀ k ∈ keysA (parseHOTO text).completed, isUnitCode k = true) ∧
    (∀ k ∈ keysA (parseHOTO text).outstanding, isUnitCode k = true) := by
  have hinv := foldl_inv HKeysOK hotoStep (fun a b ha => hotoStep_keys a b ha)
    (splitNL (stripCR text)) ⟨[], [], emptyExtra, none, none⟩
    ⟨by intro k hk; simp [keysA] at hk, by intro k hk; simp [keysA] at hk⟩
  exact ⟨hinv.1, hinv.2⟩

theorem bareCode_isUnit (l code : Str) (h : bareCode l = some code) :
    isUnitCode code = true := by
  unfold bareCode at h
  split at h
  · rename_i c r hcs
    split at h
    · simp only [Option.some.injEq] at h
      rw [← h]
      exact codeStart_isUnit _ _ _ hcs
    · exact absurd h (by simp)
  · exact absurd h (by simp)

theorem blockCode_isUnit (b code : Str) (h : blockCode b = some code) :
    isUnitCode code = true := by
  unfold blockCode at h
  obtain ⟨l, -, hl⟩ := List.exists_of_findSome?_eq_some h
  exact bareCode_isUnit l code hl

theorem tgPush_keys (m : List (Str × TgRec)) (cur : Option TgRec)
    (h : TgOK (m, cur)) :
    ∀ k ∈ keysA (tgPush m cur), isUnitCode k = true := by
  intro k hk
  unfold tgPush at hk
  split at hk
  · rename_i c
    split at hk
    · rcases mem_keysA_setA c.code c m k hk with rfl | hk2
      · exact h.2 c rfl
      · exact h.1 k hk2
    · exact h.1 k hk
  · exact h.1 k hk

theorem tgStep_keys (st : List (Str × TgRec) × Option TgRec) (b : Str)
    (h : TgOK st) : TgOK (tgStep st b) := by
  unfold tgStep
  split
  · rename_i code hbc
    refine ⟨tgPush_keys st.1 st.2 ⟨h.1, h.2⟩, ?_⟩
    intro c hc
    simp only [Option.some.injEq] at hc
    rw [← hc]
    exact blockCode_isUnit b code hbc
  · split
    · exact ⟨h.1, by intro c hc; cases hc⟩
    · rename_i c0 hc0
      refine ⟨h.1, ?_⟩
      intro c hc
      simp only [Option.some.injEq] at hc
      rw [← hc]
      exact h.2 c0 hc0

theorem tgGroups_keys (text : Str) :
    ∀ k ∈ keysA (tgGroups text), isUnitCode k = true := by
  intro k hk
  unfold tgGroups at hk
  simp only [] at hk
  refine tgPush_keys _ _ ?_ k hk
  exact foldl_inv TgOK tgStep (fun a b ha => tgStep_keys a b ha)
    (((splitNN (stripCR text)).map jsTrim).filter (fun b => b ≠ []))
    ([], none)
    ⟨by intro k2 hk2; simp [keysA] at hk2, by intro c hc; cases hc⟩

theorem parseTelegramDefects_keys (text : Str) :
    ∀ k ∈ keysA (parseTelegramDefects text), isUnitCode k = true := by
  intro k hk
  unfold parseTelegramDefects at hk
  rw [keysA_mapVals2] at hk
  exact tgGroups_keys text k hk

/-- C1, confirmed: for every input text, every key of the entry maps built
by the status-report parsers (parseReport and parseNightReport), of both
the completed and the outstanding maps of the HOTO parser, and of the
telegram defect-block parser, is a unit code — an uppercase F or S
followed by one decimal digit.  Lines without such a code never contribute
a key. -/
theorem c1_confirmed (text : Str) :
    (∀ k ∈ keysA (parseReport text), isUnitCode k = true) ∧
    (∀ k ∈ keysA (parseNightReport text), isUnitCode k = true) ∧
    (∀ k ∈ keysA (parseHOTO text).completed, isUnitCode k = true) ∧
    (∀ k ∈ keysA (parseHOTO text).outstanding, isUnitCode k = true) ∧
    (∀ k ∈ keysA (parseTelegramDefects text), isUnitCode k = true) :=
  ⟨parseReport_keys text, parseNightReport_keys text,
    (parseHOTO_keys text).1, (parseHOTO_keys text).2,
    parseTelegramDefects_keys text⟩

/-- Witness for C1 at a concrete report: the key F2 produced by the header
line "F2 - S" is indeed in the map, and the theorem certifies it is a unit
code. -/
theorem c1_witness :
    strL "F2" ∈ keysA (parseReport (strL "F2 - S")) ∧
    isUnitCode (strL "F2") = true :=
  ⟨by decide, (c1_confirmed (strL "F2 - S")).1 (strL "F2") (by decide)⟩
